import Mathlib

/-!
Verification model of the `storyblok-cli-ai` backend (`server/app`): path
normalization and sanitization, overlay delta computation, the dependency
resolvers (`dep_resolver.py` and `chain.py`), the followup-question gate,
the validator/repair pipeline and the streaming file emitter.

Python strings are modelled as Lean `String` (operating on `String.data`,
a `List Char`); Python dicts as association lists with `dictLookup` /
`dictInsert`; network and subprocess effects as explicit oracle arguments.
The float confidences/urgencies of the code are all exact multiples of 0.01
(0.0, 0.25, 0.5, 0.95, 0.98, 1.0) and are modelled in hundredths as `Nat`.
-/

namespace StoryblokAI

/-! ### Generic dictionary helpers (Python `dict` as association list) -/

/-- Python `d.get(k)`: value of the first (and, for lists built with
`dictInsert`, only) binding of `k`. -/
def dictLookup {α β : Type} [DecidableEq α] (l : List (α × β)) (k : α) : Option β :=
  (l.find? (fun kv => kv.1 = k)).map (·.2)

/-- Python `d[k] = v`: replace the value in place if the key is bound,
otherwise append the new binding (insertion order semantics). -/
def dictInsert {α β : Type} [DecidableEq α] (l : List (α × β)) (k : α) (v : β) : List (α × β) :=
  if (l.find? (fun kv => kv.1 = k)).isSome then
    l.map (fun kv => if kv.1 = k then (k, v) else kv)
  else l ++ [(k, v)]

/-! ### Character-list utilities shared by the Python string operations -/

/-- Whitespace test backing `str.strip()` / `str.split()` (ASCII whitespace). -/
def wsChar (c : Char) : Bool := c.isWhitespace

/-- Python `s.strip()`: drop whitespace from both ends. -/
def stripWs (l : List Char) : List Char :=
  ((l.dropWhile wsChar).reverse.dropWhile wsChar).reverse

/-- Model of Python `str.lower` (ASCII case folding). -/
def lowerL (l : List Char) : List Char := l.map Char.toLower

/-- Python `s.split()` with no separator: maximal runs of non-whitespace. -/
def pySplit (l : List Char) : List (List Char) :=
  (l.splitOnP wsChar).filter (· ≠ [])

/-- Python `needle in hay` substring test. -/
def hasSub (needle hay : List Char) : Bool :=
  hay.tails.any (fun t => needle.isPrefixOf t)

/-- Python `str.split("/")`. -/
def splitSlash : List Char → List (List Char)
  | [] => [[]]
  | c :: rest =>
    let gs := splitSlash rest
    if c = '/' then [] :: gs
    else
      match gs with
      | [] => [[c]]
      | g :: gs' => (c :: g) :: gs'

/-- The character map of Python `s.replace("\\", "/")`. -/
def slashify (c : Char) : Char := if c = '\\' then '/' else c

/-! ### `posixpath.normpath` and the path cleanups used by the repo -/

/-- One step of the component loop of CPython `posixpath.normpath`. -/
def normpathStep (initialSlashes : Nat) (acc : List (List Char)) (comp : List Char) :
    List (List Char) :=
  if comp = [] ∨ comp = ['.'] then acc
  else if comp ≠ ['.', '.'] ∨ (initialSlashes = 0 ∧ acc = []) ∨ acc.getLast? = some ['.', '.'] then
    acc ++ [comp]
  else if acc ≠ [] then acc.dropLast
  else acc

/-- The `initial_slashes` computation of CPython `posixpath.normpath`. -/
def initialSlashesOf (p : List Char) : Nat :=
  if p.take 1 = ['/'] then
    (if p.take 2 = ['/', '/'] ∧ p.take 3 ≠ ['/', '/', '/'] then 2 else 1)
  else 0

/-- The slash prefix plus rejoined components of `posixpath.normpath`. -/
def normpathCore (initialSlashes : Nat) (p : List Char) : List Char :=
  List.replicate initialSlashes '/' ++
    List.intercalate ['/'] ((splitSlash p).foldl (normpathStep initialSlashes) [])

/-- CPython `posixpath.normpath` on a character list (`return path or '.'`). -/
def normpathL (p : List Char) : List Char :=
  if p = [] then ['.']
  else if normpathCore (initialSlashesOf p) p = [] then ['.']
  else normpathCore (initialSlashesOf p) p

/-- `os.path.normpath` on strings. -/
def normpath (s : String) : String := ⟨normpathL s.data⟩

/-- `_normalize_path` from `codegen_agent.py`:
`os.path.normpath(p).replace("\\", "/").lstrip("/")`. -/
def normalize_path (p : String) : String :=
  ⟨((normpathL p.data).map slashify).dropWhile (· = '/')⟩

/-- The per-file path cleanup of the sanitize/dedupe loops in
`codegen_agent.generate_project` and `chain.generate_project_files`:
`os.path.normpath(p).lstrip(os.sep)`. -/
def clean_path (p : String) : String :=
  ⟨(normpathL p.data).dropWhile (· = '/')⟩

/-- `os.path.basename` (POSIX): the part after the last slash. -/
def basenameL (l : List Char) : List Char := ((splitSlash l).getLast?).getD l

/-- `os.path.basename` on strings. -/
def basename (s : String) : String := ⟨basenameL s.data⟩

/-- `_safe_normalize` from `utils/file_helpers.py`: reject empty, absolute and
traversal paths; otherwise normalize and strip leading `./` characters. -/
def safe_normalize (p : String) : Option String :=
  if stripWs p.data = [] then none
  else if (p.data.map slashify).take 1 = ['/'] then none
  else if ['.', '.'].isPrefixOf (normpathL (p.data.map slashify)) ∨
      hasSub ['/', '.', '.'] (normpathL (p.data.map slashify)) ∨
      normpathL (p.data.map slashify) = ['.', '.'] then none
  else some ⟨((normpathL (p.data.map slashify)).map slashify).dropWhile
      (fun c => c = '.' ∨ c = '/')⟩

/-- Spec predicate: a path "contains directory traversal" when some
slash-separated component is `..`. -/
def hasTraversal (s : String) : Bool := (splitSlash s.data).any (· = ['.', '.'])

/-- Spec predicate: an absolute (POSIX) path starts with a slash. -/
def isAbsolutePath (s : String) : Bool := s.data.take 1 = ['/']

/-! ### Emitted files, overlay delta and the sanitize/dedupe loop -/

/-- A generated file, the pydantic `{path, content}` pair of string fields. -/
structure GenFile where
  path : String
  content : String
deriving DecidableEq

/-- `_compute_delta_files` from `codegen_agent.py`: compare emitted files
against the base map (normalized path → content); keep new or changed files,
always skip any `package.json`. -/
def compute_delta_files (emitted : List GenFile) (base : String → Option String) :
    List GenFile :=
  match emitted with
  | [] => []
  | f :: rest =>
    let npath := normalize_path f.path
    if basename npath = "package.json" then compute_delta_files rest base
    else
      match base npath with
      | none => ⟨npath, f.content⟩ :: compute_delta_files rest base
      | some baseContent =>
        if baseContent ≠ f.content then ⟨npath, f.content⟩ :: compute_delta_files rest base
        else compute_delta_files rest base

/-- The inner replace scan of the sanitize/dedupe loop: find the first already
kept file whose re-cleaned path equals `cleanP` and overwrite it. -/
def replace_in_sanitized (out : List GenFile) (cleanP content : String) : List GenFile :=
  match out with
  | [] => []
  | ex :: rest =>
    if clean_path ex.path = cleanP then ⟨cleanP, content⟩ :: rest
    else ex :: replace_in_sanitized rest cleanP content

/-- The sanitize & dedupe loop of `codegen_agent.generate_project`
(lines 392-407) and `chain.generate_project_files` (lines 618-632):
skip empty paths, keep the first occurrence of each cleaned path and
overwrite it in place on later occurrences. -/
def sanitize_dedupe_go (seen : List String) (out : List GenFile) :
    List GenFile → List GenFile
  | [] => out
  | f :: rest =>
    if f.path = "" then sanitize_dedupe_go seen out rest
    else
      let cleanP := clean_path f.path
      if cleanP ∈ seen then
        sanitize_dedupe_go seen (replace_in_sanitized out cleanP f.content) rest
      else sanitize_dedupe_go (seen ++ [cleanP]) (out ++ [⟨cleanP, f.content⟩]) rest

/-- Entry point of the sanitize & dedupe loop (empty `seen` set and output). -/
def sanitize_dedupe (generated : List GenFile) : List GenFile :=
  sanitize_dedupe_go [] [] generated

/-- Spec-shaped upsert: overwrite the binding of `p` if present (comparing the
stored path directly), else append. Used to state what the dedupe loop is
claimed to compute. -/
def upsert_file (out : List GenFile) (p c : String) : List GenFile :=
  match out with
  | [] => [⟨p, c⟩]
  | ex :: rest => if ex.path = p then ⟨p, c⟩ :: rest else ex :: upsert_file rest p c

/-- Spec-shaped dedupe: fold the emitted files through `upsert_file`. -/
def dedupe_spec (out : List GenFile) : List GenFile → List GenFile
  | [] => out
  | f :: rest =>
    if f.path = "" then dedupe_spec out rest
    else dedupe_spec (upsert_file out (clean_path f.path) f.content) rest

/-- The contents of all occurrences of cleaned path `cp` among the emitted
files, in emission order. -/
def occContents (gen : List GenFile) (cp : String) : List String :=
  gen.filterMap (fun f => if f.path ≠ "" ∧ clean_path f.path = cp then some f.content else none)

/-! ### The overlay endpoint's candidate-file filter (`api/generate.py`) -/

/-- `os.path.splitext(...)[1]` on a POSIX basename: the suffix from the last
dot, unless every character before that dot is itself a dot. -/
def extSplitL (b : List Char) : List Char :=
  let r := b.reverse
  match r.findIdx? (· = '.') with
  | none => []
  | some k =>
    if ((r.drop (k + 1)).reverse).any (· ≠ '.') then '.' :: (r.take k).reverse else []

/-- `os.path.splitext(p)[1]` for a path. -/
def splitextExt (s : String) : String := ⟨extSplitL (basenameL s.data)⟩

/-- The binary extensions rejected by `generate_overlay`. -/
def BINARY_EXTS : List String :=
  [".png", ".jpg", ".jpeg", ".gif", ".svg", ".ico", ".webp", ".avif"]

/-- The candidate-file filter of `generate_overlay` (`api/generate.py`,
lines 210-225): drop unsafe paths and `package.json`; a binary-extension
path reaches `warnings.append` before `warnings` is assigned, raising
`UnboundLocalError`, so the whole request fails — modelled as `none`. -/
def overlay_candidate_files : List GenFile → Option (List GenFile)
  | [] => some []
  | it :: rest =>
    match safe_normalize it.path with
    | none => overlay_candidate_files rest
    | some sp =>
      if (⟨lowerL (splitextExt sp).data⟩ : String) ∈ BINARY_EXTS then none
      else if basename sp = "package.json" then
        overlay_candidate_files rest
      else
        (overlay_candidate_files rest).map (fun cs => ⟨sp, it.content⟩ :: cs)

/-! ### The registry dependency resolver (`dep_resolver.py`)

Network and cache effects are explicit: `reg` is the npm-registry response per
package name, `search` the search-endpoint result, `now` the clock and
`cache0` the persisted cache. `usedNetwork` records whether control reached
any `requests.get` call. -/

/-- `NPM_CACHE_TTL` (seconds). -/
def NPM_CACHE_TTL : Nat := 24 * 3600

/-- `NPM_REGISTRY` base URL. -/
def NPM_REGISTRY : String := "https://registry.npmjs.org"

/-- Python truthiness of an optional string (`None` and `""` falsy). -/
def truthyS : Option String → Bool
  | some s => s ≠ ""
  | none => false

/-- UTF-8 bytes of a character (as `Nat`s), as used by `urllib.parse.quote`. -/
def utf8Bytes (c : Char) : List Nat :=
  let n := c.toNat
  if n < 0x80 then [n]
  else if n < 0x800 then [0xC0 + n / 0x40, 0x80 + n % 0x40]
  else if n < 0x10000 then [0xE0 + n / 0x1000, 0x80 + (n / 0x40) % 0x40, 0x80 + n % 0x40]
  else [0xF0 + n / 0x40000, 0x80 + (n / 0x1000) % 0x40, 0x80 + (n / 0x40) % 0x40, 0x80 + n % 0x40]

/-- Uppercase hex digit. -/
def hexDigit (n : Nat) : Char := if n < 10 then Char.ofNat (48 + n) else Char.ofNat (55 + n)

/-- Percent-encode one byte unless it is unreserved (`urllib.parse.quote`
with `safe=''`). -/
def quoteByte (b : Nat) : List Char :=
  if (65 ≤ b ∧ b ≤ 90) ∨ (97 ≤ b ∧ b ≤ 122) ∨ (48 ≤ b ∧ b ≤ 57)
      ∨ b = 45 ∨ b = 46 ∨ b = 95 ∨ b = 126 then
    [Char.ofNat b]
  else ['%', hexDigit (b / 16), hexDigit (b % 16)]

/-- `urllib.parse.quote(s, safe='')`. -/
def urlquote (s : String) : String :=
  ⟨((s.data.map utf8Bytes).flatten.map quoteByte).flatten⟩

/-- The registry URL built for a package. -/
def registryUrl (name : String) : String := NPM_REGISTRY ++ "/" ++ urlquote name

/-- An entry of the search endpoint's candidate list (`description`/`links`
fields of the Python dict are never read and are omitted). -/
structure Candidate where
  name : Option String
  version : Option String
deriving DecidableEq

/-- A persisted npm cache entry (`{"ver": ..., "ts": ...}`); the 404 branch
can store a `None` version. -/
structure CacheEntry where
  ver : Option String
  ts : Nat
deriving DecidableEq

/-- A `resolved` list entry (`{name, version|null, source, url|null,
confidence, candidates?}`); `candidates = none` models an absent key and
`confidence` is in hundredths (95 = 0.95). -/
structure ResolvedEntry where
  name : String
  version : Option String
  source : Option String
  url : Option String
  confidence : Nat
  candidates : Option (List Candidate)
deriving DecidableEq

/-- The observable outcome of `requests.get(NPM_REGISTRY/<name>)`:
a 200 body (its `dist-tags.latest`, top-level `version` and `versions` keys),
a 404, another status code, or an exception anywhere in the iteration's
network interaction. -/
inductive RegOutcome
  | status200 (distLatest : Option String) (dataVersion : Option String)
      (versionsKeys : List String)
  | notFound
  | otherStatus (code : Nat)
  | exn (msg : String)
deriving DecidableEq

/-- Insertion sort step for `sorted(...)` on strings. -/
def insortStr (x : String) : List String → List String
  | [] => [x]
  | y :: ys => if x ≤ y then x :: y :: ys else y :: insortStr x ys

/-- Python `sorted` on strings (lexicographic by code point). -/
def sortedStrs (l : List String) : List String := l.foldr insortStr []

/-- The mutable state threaded through `_resolve_with_registry`'s loop. -/
structure RegState where
  cache : List (Option String × CacheEntry)
  pinned : List (Option String × Option String)
  warnings : List String
  resolved : List ResolvedEntry
  usedNetwork : Bool
deriving DecidableEq

/-- A cache-hit `resolved` entry (source `npm-cache`, confidence 0.95). -/
def cacheHitEntry (name : String) (ver : Option String) : ResolvedEntry :=
  ⟨name, ver, some "npm-cache", some (registryUrl name), 95, none⟩

/-- A successful exact-lookup entry (source `npm`, confidence 0.98). -/
def npmEntry (name : String) (ver : Option String) : ResolvedEntry :=
  ⟨name, ver, some "npm", some (registryUrl name), 98, none⟩

/-- An unresolved entry: null version/source/url, confidence 0, with a
`candidates` key. -/
def unresolvedEntry (name : String) (cands : List Candidate) : ResolvedEntry :=
  ⟨name, none, none, none, 0, some cands⟩

/-- The `ver` computed from a 200 body (`dep_resolver.py` lines 165-171):
`dist-tags.latest or data.version`, falling back to the last sorted
`versions` key when falsy. -/
def registryChosenVersion (distLatest dataVersion : Option String)
    (versionsKeys : List String) : Option String :=
  if ¬ truthyS (if truthyS distLatest then distLatest else dataVersion) then
    match (sortedStrs versionsKeys).getLast? with
    | some v => some v
    | none => if truthyS distLatest then distLatest else dataVersion
  else if truthyS distLatest then distLatest else dataVersion

/-- The network part of one `_resolve_with_registry` iteration (runs after a
cache miss or a stale cache entry). -/
def resolveViaNetwork (reg : String → RegOutcome) (search : String → List Candidate)
    (now : Nat) (st : RegState) (name : String) : RegState :=
  let st := { st with usedNetwork := true }
  match reg name with
  | .status200 distLatest dataVersion versionsKeys =>
    let ver1 := registryChosenVersion distLatest dataVersion versionsKeys
    if truthyS ver1 then
      { st with pinned := dictInsert st.pinned (some name) ver1,
                resolved := st.resolved ++ [npmEntry name ver1],
                cache := dictInsert st.cache (some name) ⟨ver1, now⟩ }
    else
      { st with resolved := st.resolved ++ [unresolvedEntry name (search name)],
                warnings := st.warnings ++
                  ["no version found for " ++ name ++ " in registry response"] }
  | .notFound =>
    match search name with
    | [] =>
      { st with resolved := st.resolved ++ [unresolvedEntry name []],
                warnings := st.warnings ++ ["npm registry returned 404 for " ++ name] }
    | top :: restCands =>
      { st with pinned := dictInsert st.pinned top.name top.version,
                cache := dictInsert st.cache top.name ⟨top.version, now⟩,
                resolved := st.resolved ++ [unresolvedEntry name (top :: restCands)],
                warnings := st.warnings ++ [name ++ " not found; suggested candidates returned"] }
  | .otherStatus code =>
    { st with warnings := st.warnings ++
        ["npm registry returned " ++ toString code ++ " for " ++ name] }
  | .exn m =>
    { st with resolved := st.resolved ++ [unresolvedEntry name []],
              warnings := st.warnings ++
                ["failed to query registry for " ++ name ++ ": " ++ m] }

/-- One iteration of `_resolve_with_registry`'s loop: fresh cache hits are
served from the cache, everything else goes to the network. -/
def resolveOne (reg : String → RegOutcome) (search : String → List Candidate)
    (now : Nat) (st : RegState) (name : String) : RegState :=
  match dictLookup st.cache (some name) with
  | some entry =>
    if now - entry.ts < NPM_CACHE_TTL then
      { st with pinned := dictInsert st.pinned (some name) entry.ver,
                resolved := st.resolved ++ [cacheHitEntry name entry.ver] }
    else resolveViaNetwork reg search now st name
  | none => resolveViaNetwork reg search now st name

/-- `_resolve_with_registry` over the requested dependency names. -/
def resolve_with_registry (depNames : List String) (reg : String → RegOutcome)
    (search : String → List Candidate) (now : Nat)
    (cache0 : List (Option String × CacheEntry)) : RegState :=
  depNames.foldl (resolveOne reg search now) ⟨cache0, [], [], [], false⟩

/-! ### `resolve_and_pin` and the npm lockfile path -/

/-- The slices of a `package-lock.json` that `_extract_pinned_from_lockfile`
reads. -/
structure Lockfile where
  dependencies : List (String × Option String)
  packages : List (String × Option String)
deriving DecidableEq

/-- Outcome of `_run_npm_package_lock_only` as seen by `_resolve_with_npm`:
a parsed lockfile, a failure dict, or a raised exception. -/
inductive NpmLockOutcome
  | ok (lock : Lockfile)
  | fail (err : String)
  | raised (msg : String)
deriving DecidableEq

/-- `_extract_pinned_from_lockfile`: read top-level `dependencies`, then fill
remaining names from `packages` keys of the form `node_modules/<name>`. -/
def extract_pinned_from_lockfile (lock : Lockfile) (requested : List String) :
    List (String × String) :=
  let pinned1 := requested.foldl (fun acc name =>
    match dictLookup lock.dependencies name with
    | some (some v) => if v ≠ "" then dictInsert acc name v else acc
    | _ => acc) []
  if pinned1.length < requested.length then
    lock.packages.foldl (fun acc kv =>
      if ("node_modules/".data).isPrefixOf kv.1.data then
        let nm : String := ⟨kv.1.data.drop ("node_modules/".data).length⟩
        if nm ∈ requested then
          match kv.2 with
          | some v => if v ≠ "" then dictInsert acc nm v else acc
          | none => acc
        else acc
      else acc) pinned1
  else pinned1

/-- Result shape of `_resolve_with_npm`. -/
structure NpmResolveResult where
  pinned : List (String × String)
  lockfileContent : Option Lockfile
  warnings : List String
deriving DecidableEq

/-- `_resolve_with_npm`: run the lockfile-only install and extract pins. -/
def resolve_with_npm (deps : List (String × String)) (npmOutcome : NpmLockOutcome) :
    NpmResolveResult :=
  match npmOutcome with
  | .ok lock => ⟨extract_pinned_from_lockfile lock (deps.map (·.1)), some lock, []⟩
  | .fail e => ⟨[], none, ["npm install failed: " ++ e]⟩
  | .raised m => ⟨[], none, ["npm resolution failed: " ++ m]⟩

/-- Result shape of `resolve_and_pin`. -/
structure ResolveResult where
  resolved : List ResolvedEntry
  pinned : List (Option String × Option String)
  lockfileType : String
  warnings : List String
  usedNetwork : Bool
deriving DecidableEq

/-- `resolve_and_pin` from `dep_resolver.py`: prefer the npm lockfile path for
JS-family languages when npm is available, fall back to the registry for the
missing names; otherwise resolve everything via the registry. There is no
curated lookup table anywhere in this resolver. -/
def resolve_and_pin (deps : List (String × String)) (language : String)
    (npmAvailable : Bool) (npmOutcome : NpmLockOutcome) (reg : String → RegOutcome)
    (search : String → List Candidate) (now : Nat)
    (cache0 : List (Option String × CacheEntry)) : ResolveResult :=
  if deps = [] then ⟨[], [], "none", [], false⟩
  else if (language = "js" ∨ language = "ts" ∨ language = "node" ∨ language = "tsx")
      ∧ npmAvailable then
    let npmRes := resolve_with_npm deps npmOutcome
    let pinned := npmRes.pinned
    let missing := (deps.map (·.1)).filter (fun n => dictLookup pinned n = none)
    let resolvedCombined := pinned.map (fun nv => npmEntry nv.1 (some nv.2))
    if missing ≠ [] then
      let fallback := resolve_with_registry missing reg search now cache0
      ⟨resolvedCombined ++ fallback.resolved,
        (pinned.map (fun nv => ((some nv.1 : Option String), (some nv.2 : Option String))))
          ++ fallback.pinned,
        "package-lock", npmRes.warnings ++ fallback.warnings, fallback.usedNetwork⟩
    else
      ⟨resolvedCombined,
        pinned.map (fun nv => ((some nv.1 : Option String), (some nv.2 : Option String))),
        "package-lock", npmRes.warnings, false⟩
  else
    let rs := resolve_with_registry (deps.map (·.1)) reg search now cache0
    ⟨rs.resolved, rs.pinned, "registry-fallback", rs.warnings, rs.usedNetwork⟩

/-! ### The curated-map resolver (`chain.py`) -/

/-- One stack entry of `dependency_map.json`. -/
structure StackDeps where
  dependencies : List (String × String)
  devDependencies : List (String × String)
deriving DecidableEq

/-- The curated-map scan of `_pin_dep_version`: per stack, check
`dependencies` then `devDependencies`. -/
def curatedLookup : List (String × StackDeps) → String → Option String
  | [], _ => none
  | (_, m) :: rest, name =>
    match dictLookup m.dependencies name with
    | some v => some v
    | none =>
      match dictLookup m.devDependencies name with
      | some v => some v
      | none => curatedLookup rest name

/-- `_pin_dep_version` from `chain.py`. The third component records whether
control reached the npm query (`get_latest_npm_version`). -/
def pin_dep_version (curated : List (String × StackDeps))
    (getLatest : String → Option String) (name : String) (requested : String) :
    String × String × Bool :=
  match curatedLookup curated name with
  | some v => (name, v, false)
  | none =>
    let stripped := requested.data.dropWhile (fun c => c = '^' ∨ c = '~')
    let fb : String × String × Bool :=
      if stripped ≠ [] then (name, ⟨stripped⟩, true) else (name, "1.0.0", true)
    match getLatest name with
    | some latest => if latest ≠ "" then (name, latest, true) else fb
    | none => fb

/-- A `meta["resolved"]` entry of `chain.resolve_and_pin_dependencies`:
`{name, version, origin}` — no `source` and no `confidence` field. -/
structure ChainResolvedEntry where
  name : String
  version : String
  origin : String
deriving DecidableEq

/-- The per-section pinning loop of `chain.resolve_and_pin_dependencies`
(lines 145-153): pin every requested dependency of a `package.json` section
and record a `{name, version, origin: "curated_or_registry"}` entry. -/
def pin_section (curated : List (String × StackDeps))
    (getLatest : String → Option String) (secMap : List (String × String)) :
    List (String × String) × List ChainResolvedEntry × Bool :=
  secMap.foldl (fun acc nr =>
    let r := pin_dep_version curated getLatest nr.1 nr.2
    (dictInsert acc.1 r.1 r.2.1,
      acc.2.1 ++ [⟨r.1, r.2.1, "curated_or_registry"⟩],
      acc.2.2 || r.2.2))
    ([], [], false)

/-! ### The followup-question gate (`followup_agent.py`, `chain.py`,
`codegen_agent.py`) -/

/-- `_normalize_qtext` / the local `_normalize` of `followup_agent.py`:
`" ".join(s.strip().lower().split())`. -/
def normalize_qtext (s : String) : String :=
  ⟨List.intercalate [' '] (pySplit (lowerL (stripWs s.data)))⟩

/-- A parsed followup candidate `{id, question, urgency}` (urgency a float in
hundredths: 50 = 0.5). -/
structure Followup where
  id : String
  question : String
  urgency : Nat
deriving DecidableEq

/-- The dedupe/filter loop of `generate_followup_questions` (steps 2-3,
lines 108-149): skip blank questions, questions already in `seen` and
questions covered by a previous answer via the substring heuristic; accepted
questions are stripped and added to `seen`. -/
def followup_filter_go (seen : List String) (answerNorms : List String) :
    List Followup → List Followup
  | [] => []
  | cand :: rest =>
    if stripWs cand.question.data = [] then followup_filter_go seen answerNorms rest
    else
      let qnorm := normalize_qtext cand.question
      if qnorm ∈ seen then followup_filter_go seen answerNorms rest
      else if answerNorms.any (fun a =>
          a ≠ "" ∧ (hasSub a.data qnorm.data ∨ hasSub qnorm.data a.data)) then
        followup_filter_go seen answerNorms rest
      else
        ⟨cand.id, ⟨stripWs cand.question.data⟩, cand.urgency⟩ ::
          followup_filter_go (seen ++ [qnorm]) answerNorms rest

/-- The deterministic core of `generate_followup_questions` after the LLM
parse (steps 2-5): dedupe against previously asked questions and previous
answers, apply the urgency threshold, truncate to `maxQuestions`. The gate
can return the empty list. -/
def generate_followup_questions (candidates : List Followup)
    (prevQuestions : List String) (prevAnswers : List String)
    (minUrgency : Nat) (maxQuestions : Nat) : List Followup :=
  let prevQNorm := prevQuestions.map normalize_qtext
  let answerNorms := (prevAnswers.filter (fun v => stripWs v.data ≠ [])).map normalize_qtext
  let filtered := followup_filter_go prevQNorm answerNorms candidates
  ((filtered.filter (fun f => minUrgency ≤ f.urgency)).take maxQuestions)

/-- Outcome of the question gate at the top of
`codegen_agent.generate_project` (lines 334-342). -/
inductive QuestionStepOutcome
  | earlyReturn (followups : List Followup)
  | proceed
deriving DecidableEq

/-- The question gate of `codegen_agent.generate_project`: early-return the
followups only when the caller asked for questions and the gate returned a
non-empty list; otherwise generation proceeds. -/
def question_step (requestQuestions : Bool) (gateFollowups : List Followup) :
    QuestionStepOutcome :=
  if requestQuestions then
    (if gateFollowups ≠ [] then .earlyReturn gateFollowups else .proceed)
  else .proceed

/-- A normalized followup of `chain.py` (`{id, question, type, default}`). -/
structure ChainFollowup where
  id : String
  question : String
  ftype : String
  dfault : String
deriving DecidableEq

/-- The fixed fallback clarifying question substituted by
`chain.generate_project_files` (lines 555-560); `ts` models
`int(time.time()*1000)`. -/
def chain_fallback_question (ts : Nat) : ChainFollowup :=
  ⟨"q_" ++ toString ts,
    "Please list the key requirements for the app (pages, main features, and visual style).",
    "text", ""⟩

/-- The fallback substitution of `chain.generate_project_files`
(lines 553-560): an explicit question request with zero normalized followups
yields exactly the one fixed fallback question. -/
def chain_question_gate (requestQuestions : Bool) (normalized : List ChainFollowup)
    (ts : Nat) : List ChainFollowup :=
  if requestQuestions ∧ normalized = [] then [chain_fallback_question ts] else normalized

/-! ### The validator (`validator.py`) -/

/-- Result of one `run_*_check`: `{ok, skipped, output}`. -/
structure CheckResult where
  ok : Bool
  skipped : Bool
  output : String
deriving DecidableEq

/-- `run_tsc_check`: skipped when neither `npx` nor `tsc` is on the path,
otherwise ok iff the spawned process exited 0. -/
def run_tsc_check (npxAvailable tscAvailable : Bool) (exitCode : Int) (out : String) :
    CheckResult :=
  if npxAvailable ∨ tscAvailable then ⟨exitCode = 0, false, out⟩
  else ⟨false, true, "tsc not found; skipping TypeScript validation"⟩

/-- `run_pytests`: same shape for pytest. -/
def run_pytests (pytestAvailable : Bool) (exitCode : Int) (out : String) : CheckResult :=
  if pytestAvailable then ⟨exitCode = 0, false, out⟩
  else ⟨false, true, "pytest not found; skipping Python tests"⟩

/-- `run_go_vet`: same shape for go vet. -/
def run_go_vet (goAvailable : Bool) (exitCode : Int) (out : String) : CheckResult :=
  if goAvailable then ⟨exitCode = 0, false, out⟩
  else ⟨false, true, "go not found; skipping go vet"⟩

/-- The validator options read by `run_validations`. -/
structure VOptions where
  validate_tsc : Bool
  validate_pytest : Bool
  validate_go : Bool
deriving DecidableEq

/-- The response of `run_validations`. -/
structure ValidationResp where
  checked : Bool
  ok : Option Bool
  output : String
  details : List (String × CheckResult)
  skipped : Bool
deriving DecidableEq

/-- `run_validations` (lines 70-127): run each configured check, AND the
non-skipped results into `overall_ok`; `ok` is `null` iff no check was
configured. The per-check results are passed in as the environment outcomes. -/
def run_validations (o : VOptions) (tscR pytestR goR : CheckResult) : ValidationResp :=
  let s0 : Bool × Bool × List String × List (String × CheckResult) := (true, false, [], [])
  let s1 :=
    if o.validate_tsc then
      (s0.1 && (tscR.ok || tscR.skipped), true,
        s0.2.2.1 ++ ["=== tsc ===\n" ++ tscR.output], s0.2.2.2 ++ [("tsc", tscR)])
    else s0
  let s2 :=
    if o.validate_pytest then
      (s1.1 && (pytestR.ok || pytestR.skipped), true,
        s1.2.2.1 ++ ["=== pytest ===\n" ++ pytestR.output], s1.2.2.2 ++ [("pytest", pytestR)])
    else s1
  let s3 :=
    if o.validate_go then
      (s2.1 && (goR.ok || goR.skipped), true,
        s2.2.2.1 ++ ["=== go vet ===\n" ++ goR.output], s2.2.2.2 ++ [("go_vet", goR)])
    else s2
  { checked := s3.2.1,
    ok := if s3.2.1 then some s3.1 else none,
    output := ⟨stripWs (List.intercalate ['\n'] ((s3.2.2.1).map String.data))⟩,
    details := s3.2.2.2,
    skipped := !s3.2.1 }

/-- Spec-side list of the configured checks' results, in execution order. -/
def configuredChecks (o : VOptions) (tscR pytestR goR : CheckResult) : List CheckResult :=
  (if o.validate_tsc then [tscR] else []) ++
    (if o.validate_pytest then [pytestR] else []) ++
    (if o.validate_go then [goR] else [])

/-! ### Bounded repair (`validator.attempt_repair`,
`codegen_agent.generate_project` lines 416-467) -/

/-- One repair-LLM call outcome: an exception or a parsed `{files: [...]}`. -/
inductive RepairLLMOutcome
  | exn (msg : String)
  | result (files : List GenFile)

/-- Result shape of `attempt_repair`. -/
structure RepairResult where
  attempts : Nat
  repaired_files : List GenFile
  applied : Nat
  ok : Bool
deriving DecidableEq

/-- The body of `attempt_repair`'s `for att in range(attempts_allowed)` loop:
every branch of the body returns, so at most one iteration ever runs; with a
zero budget the loop is skipped. `llm att` is the outcome of the call made in
iteration `att`. Writes to the workspace are modelled as always succeeding,
so `applied` equals the number of candidate files. -/
def attempt_repair_go (llm : Nat → RepairLLMOutcome) :
    Nat → Nat → RepairResult
  | 0, attempts => ⟨attempts, [], 0, false⟩
  | Nat.succ _, attempts =>
    match llm attempts with
    | .exn _ => ⟨attempts + 1, [], 0, false⟩
    | .result parsedFiles =>
      let candidateFiles := parsedFiles.filter (fun f => f.path ≠ "")
      if candidateFiles = [] then ⟨attempts + 1, [], 0, false⟩
      else ⟨attempts + 1, candidateFiles, candidateFiles.length,
        decide (0 < candidateFiles.length)⟩

/-- `attempt_repair` with the given attempt budget. -/
def attempt_repair (attemptsAllowed : Nat) (llm : Nat → RepairLLMOutcome) : RepairResult :=
  attempt_repair_go llm attemptsAllowed 0

/-- The validation report assembled by `generate_project`. -/
structure ValReport where
  checked : Bool
  ok : Option Bool
  output : String
  skipped : Bool
deriving DecidableEq

/-- Read a `ValReport` off a `run_validations` response. -/
def reportOf (v : ValidationResp) : ValReport := ⟨v.checked, v.ok, v.output, v.skipped⟩

/-- Merge repaired files into the sanitized list (replace by cleaned path or
append), as in `generate_project` lines 443-452. -/
def merge_repaired (sanitized : List GenFile) : List GenFile → List GenFile
  | [] => sanitized
  | rf :: rest =>
    let rp := clean_path rf.path
    let replaced := (sanitized.find? (fun ex => clean_path ex.path = rp)).isSome
    if replaced then
      merge_repaired (replace_in_sanitized sanitized rp rf.content) rest
    else merge_repaired (sanitized ++ [⟨rp, rf.content⟩]) rest

/-- The validate-and-repair section of `codegen_agent.generate_project`
(lines 429-467): run the validators; when checked and failed, attempt exactly
one bounded repair (`repair_attempts = 1`) and re-run the validators.
`validator n` is the outcome of the (n+1)-th `run_validations` call.
Returns the final validation report, the repair result (if a repair was
attempted) and the final file list. -/
def generate_project_validation (validator : Nat → ValidationResp)
    (repairLLM : Nat → RepairLLMOutcome) (sanitized : List GenFile) :
    ValReport × Option RepairResult × List GenFile :=
  let valRes := validator 0
  if valRes.checked ∧ valRes.ok = some false then
    let repairRes := attempt_repair 1 repairLLM
    let sanitized' := merge_repaired sanitized repairRes.repaired_files
    let valAfter := validator 1
    (reportOf valAfter, some repairRes, sanitized')
  else (reportOf valRes, none, sanitized)

/-! ### The streaming emitter (`codegen_agent.py` `_stream_files_list`,
`stream_generate_project`) -/

/-- `STREAM_CHUNK_SZ` (default). -/
def STREAM_CHUNK_SZ : Nat := 1024

/-- Newline-delimited JSON events of the stream (payload fields relevant to
the file protocol). -/
inductive StreamEvent
  | fileStart (path : String)
  | fileChunk (path : String) (chunk : String) (index : Nat) (final : Bool)
  | fileComplete (path : String) (size : Nat)
  | done (filesCount : Nat)
deriving DecidableEq

/-- The `range(0, len(content), STREAM_CHUNK_SZ)` chunk slices. -/
def chunkSlices (c : List Char) : List (List Char) :=
  if h : c = [] then []
  else c.take STREAM_CHUNK_SZ :: chunkSlices (c.drop STREAM_CHUNK_SZ)
termination_by c.length
decreasing_by
  have hlen : 0 < c.length := List.length_pos.mpr h
  simp [List.length_drop, STREAM_CHUNK_SZ]
  omega

/-- The `file_chunk` events for the chunk slices, with running index `k`;
`final` is `(i + STREAM_CHUNK_SZ) >= len(content)` for `i = k * STREAM_CHUNK_SZ`. -/
def chunkEventsGo (path : String) (totalLen : Nat) : Nat → List (List Char) → List StreamEvent
  | _, [] => []
  | k, chunk :: rest =>
    .fileChunk path ⟨chunk⟩ k (decide (totalLen ≤ (k + 1) * STREAM_CHUNK_SZ)) ::
      chunkEventsGo path totalLen (k + 1) rest

/-- The `file_chunk` events for one file's content. -/
def chunkEvents (path : String) (content : String) : List StreamEvent :=
  chunkEventsGo path content.data.length 0 (chunkSlices content.data)

/-- The normalized-path copy of a file appended to `accumulated_files`. -/
def accFile (f : GenFile) : GenFile := ⟨normpath f.path, f.content⟩

/-- The event triple emitted by `_stream_files_list` for one file: its own
`file_start`, its content chunks, its own `file_complete`. The path is
`os.path.normpath`-ed first. -/
def fileEvents (f : GenFile) : List StreamEvent :=
  let path := normpath f.path
  [.fileStart path] ++ chunkEvents path f.content ++
    [.fileComplete path f.content.data.length]

/-- `_stream_files_list` over one generation call's file list: emit each
file's events and append each file (normalized path, content) to the
accumulator — no deduplication of repeated paths. -/
def stream_files_list (files : List GenFile) (acc : List GenFile) :
    List StreamEvent × List GenFile :=
  match files with
  | [] => ([], acc)
  | f :: rest =>
    let tail := stream_files_list rest (acc ++ [accFile f])
    (fileEvents f ++ tail.1, tail.2)

/-- Discriminator for `file_start` events. -/
def isStartEv : StreamEvent → Bool
  | .fileStart _ => true
  | _ => false

/-- Discriminator for `file_complete` events. -/
def isCompleteEv : StreamEvent → Bool
  | .fileComplete _ _ => true
  | _ => false

/-- The file-streaming skeleton of `stream_generate_project`: stream every
generation call's files in order into one accumulator, then emit the `done`
event whose `files_count` is the length of the accumulated list. -/
def stream_generate_project (gens : List (List GenFile)) : List StreamEvent × List GenFile :=
  let rec go (gs : List (List GenFile)) (acc : List GenFile) :
      List StreamEvent × List GenFile :=
    match gs with
    | [] => ([], acc)
    | g :: rest =>
      let r := stream_files_list g acc
      let r' := go rest r.2
      (r.1 ++ r'.1, r'.2)
  let r := go gens []
  (r.1 ++ [.done r.2.length], r.2)

/-! ## Helper lemmas -/

/-- Filtering out skipped checks and requiring `ok` is the same as requiring
`ok` or `skipped` of every check. -/
theorem all_filter_not_skipped (l : List CheckResult) :
    ((l.filter (fun r => !r.skipped)).all (fun r => r.ok)) =
      l.all (fun r => r.ok || r.skipped) := by
  induction l with
  | nil => rfl
  | cons r rest ih =>
    by_cases h : r.skipped
    · simp [List.filter, List.all, h, ih]
    · simp [List.filter, List.all, h, ih]

/-! ## C2 — overlay delta computation -/

/-- C2: in overlay mode the computed delta never contains a file whose content
is byte-for-byte identical to the base entry at the same normalized path; it
always contains every emitted non-`package.json` file that is new or changed;
and it never contains a `package.json` file (which is skipped even when the
model returns it). -/
theorem compute_delta_never_identical_always_changed (emitted : List GenFile)
    (base : String → Option String) :
    (∀ d ∈ compute_delta_files emitted base, base d.path ≠ some d.content) ∧
    (∀ f ∈ emitted, basename (normalize_path f.path) ≠ "package.json" →
      base (normalize_path f.path) ≠ some f.content →
      (⟨normalize_path f.path, f.content⟩ : GenFile) ∈ compute_delta_files emitted base) ∧
    (∀ d ∈ compute_delta_files emitted base, basename d.path ≠ "package.json") := by
  induction emitted with
  | nil =>
    refine ⟨?_, ?_, ?_⟩ <;> intro d hd <;> simp [compute_delta_files] at hd
  | cons f rest ih =>
    obtain ⟨ih1, ih2, ih3⟩ := ih
    by_cases hpkg : basename (normalize_path f.path) = "package.json"
    · rw [show compute_delta_files (f :: rest) base = compute_delta_files rest base by
        simp [compute_delta_files, hpkg]]
      refine ⟨ih1, ?_, ih3⟩
      intro g hg hgpkg hgbase
      rcases List.mem_cons.mp hg with rfl | hgrest
      · exact absurd hpkg hgpkg
      · exact ih2 g hgrest hgpkg hgbase
    · cases hbase : base (normalize_path f.path) with
      | none =>
        rw [show compute_delta_files (f :: rest) base =
            ⟨normalize_path f.path, f.content⟩ :: compute_delta_files rest base by
          simp [compute_delta_files, hpkg, hbase]]
        refine ⟨?_, ?_, ?_⟩
        · intro d hd
          rcases List.mem_cons.mp hd with rfl | hdrest
          · simpa [hbase] using (by simp : (none : Option String) ≠ some f.content)
          · exact ih1 d hdrest
        · intro g hg hgpkg hgbase
          rcases List.mem_cons.mp hg with rfl | hgrest
          · exact List.mem_cons_self _ _
          · exact List.mem_cons_of_mem _ (ih2 g hgrest hgpkg hgbase)
        · intro d hd
          rcases List.mem_cons.mp hd with rfl | hdrest
          · exact hpkg
          · exact ih3 d hdrest
      | some bc =>
        by_cases hne : bc ≠ f.content
        · rw [show compute_delta_files (f :: rest) base =
              ⟨normalize_path f.path, f.content⟩ :: compute_delta_files rest base by
            simp [compute_delta_files, hpkg, hbase, hne]]
          refine ⟨?_, ?_, ?_⟩
          · intro d hd
            rcases List.mem_cons.mp hd with rfl | hdrest
            · simp only [hbase]
              intro hcontra
              exact hne (Option.some.inj hcontra)
            · exact ih1 d hdrest
          · intro g hg hgpkg hgbase
            rcases List.mem_cons.mp hg with rfl | hgrest
            · exact List.mem_cons_self _ _
            · exact List.mem_cons_of_mem _ (ih2 g hgrest hgpkg hgbase)
          · intro d hd
            rcases List.mem_cons.mp hd with rfl | hdrest
            · exact hpkg
            · exact ih3 d hdrest
        · push_neg at hne
          rw [show compute_delta_files (f :: rest) base = compute_delta_files rest base by
            simp [compute_delta_files, hpkg, hbase, hne]]
          refine ⟨ih1, ?_, ih3⟩
          intro g hg hgpkg hgbase
          rcases List.mem_cons.mp hg with rfl | hgrest
          · exact absurd (by rw [hbase, hne]) hgbase
          · exact ih2 g hgrest hgpkg hgbase

/-- C2 witness: a changed file at a fresh path lands in the delta. -/
theorem compute_delta_never_identical_always_changed_witness :
    (⟨"src/a.ts", "x"⟩ : GenFile) ∈
      compute_delta_files [⟨"src/a.ts", "x"⟩] (fun _ => none) := by
  have h := (compute_delta_never_identical_always_changed [⟨"src/a.ts", "x"⟩]
      (fun _ => none)).2.1 ⟨"src/a.ts", "x"⟩ (by simp) (by decide) (by simp)
  have hnorm : normalize_path "src/a.ts" = "src/a.ts" := by decide
  simpa [hnorm] using h

/-! ## C3 — the curated table and `resolve_and_pin` -/

/-- C3 counterexample: even with a curated table containing
`react → 18.2.0`, `resolve_and_pin` (which never consults any curated table)
resolves `react` through the registry: the single resolved entry carries the
registry's latest version, source `"npm"` and confidence 0.98 — not
`"curated"`/1.0 — and a network call is performed. -/
theorem resolve_and_pin_ignores_curated_table :
    curatedLookup [("nextjs", ⟨[("react", "18.2.0")], []⟩)] "react" = some "18.2.0" ∧
    (resolve_and_pin [("react", "")] "js" false (.fail "no npm")
        (fun _ => .status200 (some "19.0.0") none []) (fun _ => []) 0 []).resolved.map
        (fun e => (e.name, e.version, e.source, e.confidence)) =
      [("react", some "19.0.0", some "npm", 98)] ∧
    (resolve_and_pin [("react", "")] "js" false (.fail "no npm")
        (fun _ => .status200 (some "19.0.0") none []) (fun _ => []) 0 []).usedNetwork = true ∧
    (some "npm" : Option String) ≠ some "curated" ∧ (98 : Nat) ≠ 100 := by
  refine ⟨by decide, by decide, by decide, by decide, by decide⟩

/-- C3 (amended): the curated table is consulted only by the chain resolver's
`_pin_dep_version`: a curated hit pins the curated version with no npm query,
and the chain records a `{name, version, origin: "curated_or_registry"}`
entry — there is no `source: "curated"` / `confidence: 1.0` entry anywhere. -/
theorem curated_pin_no_network (curated : List (String × StackDeps))
    (getLatest : String → Option String) (name ver req : String)
    (hcur : curatedLookup curated name = some ver) :
    pin_dep_version curated getLatest name req = (name, ver, false) ∧
    pin_section curated getLatest [(name, req)] =
      ([(name, ver)], [⟨name, ver, "curated_or_registry"⟩], false) := by
  have h1 : pin_dep_version curated getLatest name req = (name, ver, false) := by
    unfold pin_dep_version
    rw [hcur]
  refine ⟨h1, ?_⟩
  simp [pin_section, h1, dictInsert]

/-- C3 witness: the curated hit `react → 18.2.0` pins without a network
call. -/
theorem curated_pin_no_network_witness :
    pin_dep_version [("nextjs", ⟨[("react", "18.2.0")], []⟩)] (fun _ => some "19.0.0")
        "react" "" = ("react", "18.2.0", false) ∧
    pin_section [("nextjs", ⟨[("react", "18.2.0")], []⟩)] (fun _ => some "19.0.0")
        [("react", "")] = ([("react", "18.2.0")], [⟨"react", "18.2.0", "curated_or_registry"⟩], false) :=
  curated_pin_no_network [("nextjs", ⟨[("react", "18.2.0")], []⟩)] (fun _ => some "19.0.0")
    "react" "18.2.0" "" (by decide)

/-! ## C4 — the followup-question gate and the fallback question -/

/-- C4 counterexample: with an explicit question request whose only candidate
is deduplicated away against the history, the followup gate returns the empty
list (no fallback question) and `generate_project`'s question step proceeds
with generation. -/
theorem followup_gate_empty_and_generation_proceeds :
    generate_followup_questions [⟨"", "Which pages do you need?", 50⟩]
        ["which   PAGES do you need?"] [] 25 5 = [] ∧
    question_step true (generate_followup_questions [⟨"", "Which pages do you need?", 50⟩]
        ["which   PAGES do you need?"] [] 25 5) = .proceed ∧
    ([] : List Followup).length ≠ 1 := by
  refine ⟨by decide, by decide, by decide⟩

/-- C4 (amended): only `chain.generate_project_files` substitutes exactly the
one fixed fallback question when an explicit question request yields zero
normalized followups; the followup-agent gate can return an empty list, in
which case `codegen_agent.generate_project`'s question step proceeds with
generation. -/
theorem chain_gate_single_fallback (ts : Nat) (normalized : List ChainFollowup)
    (hnone : normalized = []) :
    chain_question_gate true normalized ts = [chain_fallback_question ts] ∧
    (chain_question_gate true normalized ts).length = 1 ∧
    question_step true [] = .proceed := by
  subst hnone
  exact ⟨by simp [chain_question_gate], by simp [chain_question_gate], rfl⟩

/-- C4 witness: the chain gate substitutes the single fallback question. -/
theorem chain_gate_single_fallback_witness :
    chain_question_gate true [] 1700000000000 = [chain_fallback_question 1700000000000] ∧
    (chain_question_gate true ([] : List ChainFollowup) 1700000000000).length = 1 ∧
    question_step true [] = .proceed :=
  chain_gate_single_fallback 1700000000000 [] rfl

/-! ## C5 — `run_validations` semantics -/

/-- C5 counterexample: a configured tsc check whose tool is absent is skipped,
no check actually runs, and yet the overall `ok` is `true`, not `null`. -/
theorem validation_ok_true_when_all_checks_skipped :
    (run_tsc_check false false 1 "boom").skipped = true ∧
    (run_validations ⟨true, false, false⟩ (run_tsc_check false false 1 "boom")
        (run_pytests false 1 "") (run_go_vet false 1 "")).ok = some true ∧
    (some true : Option Bool) ≠ none := by
  refine ⟨by decide, by decide, by decide⟩

/-- C5 (amended): a configured check whose tool is absent is reported skipped;
`ok` equals the AND of the non-skipped configured checks (vacuously `true`
when every configured check was skipped); and `ok` is `null` exactly when no
check was configured — not when configured checks were all skipped. -/
theorem run_validations_ok_semantics (o : VOptions) (r1 r2 r3 : CheckResult) :
    ((run_validations o r1 r2 r3).ok = none ↔
      ¬ (o.validate_tsc ∨ o.validate_pytest ∨ o.validate_go)) ∧
    (∀ b, (run_validations o r1 r2 r3).ok = some b →
      b = ((configuredChecks o r1 r2 r3).filter (fun r => !r.skipped)).all (fun r => r.ok)) ∧
    (∀ code out, (run_tsc_check false false code out).skipped = true) := by
  obtain ⟨o1, o2, o3⟩ := o
  refine ⟨?_, ?_, fun code out => rfl⟩ <;>
    cases o1 <;> cases o2 <;> cases o3 <;>
      simp [run_validations, configuredChecks, all_filter_not_skipped, List.all,
        Bool.and_assoc, Bool.or_comm]

/-- C5 witness: with only tsc configured and failing, `ok` is `some false`,
matching the AND of the non-skipped checks. -/
theorem run_validations_ok_semantics_witness :
    false = ((configuredChecks ⟨true, false, false⟩ ⟨false, false, "out"⟩
        ⟨true, false, ""⟩ ⟨true, false, ""⟩).filter (fun r => !r.skipped)).all
        (fun r => r.ok) :=
  (run_validations_ok_semantics ⟨true, false, false⟩ ⟨false, false, "out"⟩
      ⟨true, false, ""⟩ ⟨true, false, ""⟩).2.1 false (by decide)

/-! ## C7 — the bounded validate-and-repair loop -/

/-- C7: with repair budget 1 and a validator that fails on every invocation,
exactly one repair generation call is attempted (whatever its content), the
loop terminates, and the final validation report has `ok: false`. -/
theorem repair_loop_single_attempt (validator : Nat → ValidationResp)
    (repairLLM : Nat → RepairLLMOutcome) (files : List GenFile)
    (hfail : ∀ n, (validator n).checked = true ∧ (validator n).ok = some false) :
    (generate_project_validation validator repairLLM files).2.1 =
      some (attempt_repair 1 repairLLM) ∧
    (attempt_repair 1 repairLLM).attempts = 1 ∧
    (generate_project_validation validator repairLLM files).1.ok = some false := by
  have h0 := hfail 0
  have h1 := hfail 1
  have hcond : ((validator 0).checked = true) ∧ (validator 0).ok = some false := ⟨h0.1, h0.2⟩
  have hattempts : (attempt_repair 1 repairLLM).attempts = 1 := by
    cases hr : repairLLM 0 with
    | exn m => simp [attempt_repair, attempt_repair_go, hr]
    | result fs =>
      simp only [attempt_repair, attempt_repair_go, hr]
      split
      · rfl
      · rfl
  refine ⟨?_, hattempts, ?_⟩
  · unfold generate_project_validation
    rw [if_pos ⟨hcond.1, hcond.2⟩]
  · unfold generate_project_validation
    rw [if_pos ⟨hcond.1, hcond.2⟩]
    simpa [reportOf] using h1.2

/-- C7 witness: a concrete always-failing validator with a one-file repair
response: one attempt, final report `ok: false`. -/
theorem repair_loop_single_attempt_witness :
    (generate_project_validation (fun _ => ⟨true, some false, "TS2304", [], false⟩)
        (fun _ => .result [⟨"src/a.ts", "fixed"⟩]) []).2.1 =
      some (attempt_repair 1 (fun _ => .result [⟨"src/a.ts", "fixed"⟩])) ∧
    (attempt_repair 1 (fun _ => .result [⟨"src/a.ts", "fixed"⟩])).attempts = 1 ∧
    (generate_project_validation (fun _ => ⟨true, some false, "TS2304", [], false⟩)
        (fun _ => .result [⟨"src/a.ts", "fixed"⟩]) []).1.ok = some false :=
  repair_loop_single_attempt (fun _ => ⟨true, some false, "TS2304", [], false⟩)
    (fun _ => .result [⟨"src/a.ts", "fixed"⟩]) [] (fun _ => ⟨rfl, rfl⟩)

/-! ## C10 — the streaming emitter does not deduplicate -/

/-- Chunk events contain no `file_start`. -/
theorem countP_isStartEv_chunkEventsGo (path : String) (totalLen : Nat) :
    ∀ k slices, (chunkEventsGo path totalLen k slices).countP isStartEv = 0 := by
  intro k slices
  induction slices generalizing k with
  | nil => rfl
  | cons chunk rest ih => simp [chunkEventsGo, List.countP_cons, isStartEv, ih]

/-- Chunk events contain no `file_complete`. -/
theorem countP_isCompleteEv_chunkEventsGo (path : String) (totalLen : Nat) :
    ∀ k slices, (chunkEventsGo path totalLen k slices).countP isCompleteEv = 0 := by
  intro k slices
  induction slices generalizing k with
  | nil => rfl
  | cons chunk rest ih => simp [chunkEventsGo, List.countP_cons, isCompleteEv, ih]

/-- Every file's event block holds exactly one `file_start` and one
`file_complete`. -/
theorem fileEvents_counts (f : GenFile) :
    (fileEvents f).countP isStartEv = 1 ∧ (fileEvents f).countP isCompleteEv = 1 := by
  unfold fileEvents chunkEvents
  constructor
  · simp [List.countP_append, List.countP_cons, isStartEv, isCompleteEv,
      countP_isStartEv_chunkEventsGo]
  · simp [List.countP_append, List.countP_cons, isStartEv, isCompleteEv,
      countP_isCompleteEv_chunkEventsGo]

/-- `_stream_files_list` appends exactly the normalized copies of its input
files to the accumulator and emits the concatenation of the per-file event
blocks. -/
theorem stream_files_list_spec (files : List GenFile) :
    ∀ acc, (stream_files_list files acc).2 = acc ++ files.map accFile ∧
      (stream_files_list files acc).1 = (files.map fileEvents).flatten := by
  induction files with
  | nil => intro acc; simp [stream_files_list]
  | cons f rest ih =>
    intro acc
    have h := ih (acc ++ [accFile f])
    constructor
    · rw [show (stream_files_list (f :: rest) acc).2 =
          (stream_files_list rest (acc ++ [accFile f])).2 from rfl, h.1]
      simp
    · rw [show (stream_files_list (f :: rest) acc).1 =
          fileEvents f ++ (stream_files_list rest (acc ++ [accFile f])).1 from rfl, h.2]
      simp

/-- The recursive driver of `stream_generate_project` accumulates the
flattened generation outputs and concatenates their event blocks. -/
theorem stream_generate_project_go_spec (gens : List (List GenFile)) :
    ∀ acc, (stream_generate_project.go gens acc).2 = acc ++ (gens.flatten).map accFile ∧
      (stream_generate_project.go gens acc).1 = ((gens.flatten).map fileEvents).flatten := by
  induction gens with
  | nil => intro acc; simp [stream_generate_project.go]
  | cons g rest ih =>
    intro acc
    have hg := stream_files_list_spec g acc
    have hr := ih (stream_files_list g acc).2
    constructor
    · rw [show (stream_generate_project.go (g :: rest) acc).2 =
          (stream_generate_project.go rest (stream_files_list g acc).2).2 from rfl,
        hr.1, hg.1, List.flatten_cons, List.map_append, List.append_assoc]
    · rw [show (stream_generate_project.go (g :: rest) acc).1 =
          (stream_files_list g acc).1 ++
            (stream_generate_project.go rest (stream_files_list g acc).2).1 from rfl,
        hr.2, hg.2, List.flatten_cons, List.map_append, List.flatten_append]

/-- C10: the streaming path does not deduplicate: the accumulated file list is
exactly the (normalized-path) copy of every emitted file in emission order,
every emission contributes its own `file_start`/chunk/`file_complete` block,
the stream is those blocks followed by `done`, and the `done` event's
`files_count` equals the total number of emissions counting duplicates. -/
theorem stream_counts_duplicate_emissions (gens : List (List GenFile)) :
    (stream_generate_project gens).2 = (gens.flatten).map accFile ∧
    (stream_generate_project gens).1 =
      ((gens.flatten).map fileEvents).flatten ++ [.done (gens.flatten).length] ∧
    (stream_generate_project gens).1.countP isStartEv = (gens.flatten).length ∧
    (stream_generate_project gens).1.countP isCompleteEv = (gens.flatten).length ∧
    (stream_generate_project gens).1.getLast? = some (.done (gens.flatten).length) := by
  have hgo := stream_generate_project_go_spec gens []
  have hacc : (stream_generate_project gens).2 = (gens.flatten).map accFile := by
    rw [show (stream_generate_project gens).2 = (stream_generate_project.go gens []).2
        from rfl, hgo.1]
    simp
  have hlen : (stream_generate_project.go gens []).2.length = (gens.flatten).length := by
    rw [hgo.1]
    simp only [List.nil_append, List.length_map]
  have hev : (stream_generate_project gens).1 =
      ((gens.flatten).map fileEvents).flatten ++ [.done (gens.flatten).length] := by
    rw [show (stream_generate_project gens).1 = (stream_generate_project.go gens []).1 ++
        [.done (stream_generate_project.go gens []).2.length] from rfl, hgo.2, hlen]
  have hcount : ∀ q : StreamEvent → Bool, (∀ f, (fileEvents f).countP q = 1) →
      q (.done (gens.flatten).length) = false →
      (stream_generate_project gens).1.countP q = (gens.flatten).length := by
    intro q hq hdone
    have hjoin : ∀ l : List GenFile, ((l.map fileEvents).flatten).countP q = l.length := by
      intro l
      induction l with
      | nil => rfl
      | cons f rest ih =>
        rw [List.map_cons, List.flatten_cons, List.countP_append, hq f, ih, List.length_cons]
        omega
    have hone : List.countP q [StreamEvent.done gens.flatten.length] = 0 := by
      rw [List.countP_cons, List.countP_nil, hdone]
      rfl
    rw [hev, List.countP_append, hjoin gens.flatten, hone]
    omega
  refine ⟨hacc, hev, ?_, ?_, ?_⟩
  · exact hcount isStartEv (fun f => (fileEvents_counts f).1) rfl
  · exact hcount isCompleteEv (fun f => (fileEvents_counts f).2) rfl
  · rw [hev]
    simp

/-! ## C8 — the merge keeps one entry per path, last occurrence wins -/

/-- Paths whose filter at `p` is empty stay empty. -/
theorem filter_path_eq_nil_of_not_mem (rest : List GenFile) (p : String)
    (h : p ∉ rest.map (·.path)) : rest.filter (fun g => g.path = p) = [] := by
  induction rest with
  | nil => rfl
  | cons ex tl ih =>
    have hne : ex.path ≠ p := fun he => h (by simp [he])
    have htl : p ∉ tl.map (·.path) := fun hm => h (by simp [hm])
    simp [List.filter, hne, ih htl]

/-- Upserting a present key replaces in place; the filter at that key is the
single new binding (given unique stored paths). -/
theorem upsert_filter_eq (out : List GenFile) (p c : String)
    (hnd : (out.map (·.path)).Nodup) :
    (upsert_file out p c).filter (fun g => g.path = p) = [⟨p, c⟩] := by
  induction out with
  | nil => simp [upsert_file, List.filter]
  | cons ex rest ih =>
    rw [List.map_cons, List.nodup_cons] at hnd
    by_cases he : ex.path = p
    · have hrest : rest.filter (fun g => g.path = p) = [] :=
        filter_path_eq_nil_of_not_mem rest p (he ▸ hnd.1)
      simp [upsert_file, he, List.filter, hrest]
    · simp [upsert_file, he, List.filter, ih hnd.2]

/-- Upserting at `p` does not change the filter at a different path `q`. -/
theorem upsert_filter_ne (out : List GenFile) (p c q : String) (hne : q ≠ p) :
    (upsert_file out p c).filter (fun g => g.path = q) =
      out.filter (fun g => g.path = q) := by
  have hpq : p ≠ q := Ne.symm hne
  induction out with
  | nil => simp [upsert_file, List.filter_cons, hpq]
  | cons ex rest ih =>
    by_cases he : ex.path = p
    · rw [show upsert_file (ex :: rest) p c = ⟨p, c⟩ :: rest by simp [upsert_file, he]]
      simp [List.filter_cons, hpq, he]
    · rw [show upsert_file (ex :: rest) p c = ex :: upsert_file rest p c by
        simp [upsert_file, he]]
      simp [List.filter_cons, ih]

/-- Members of an upsert are old members or the new binding. -/
theorem mem_upsert (out : List GenFile) (p c : String) (g : GenFile)
    (hg : g ∈ upsert_file out p c) : g ∈ out ∨ g = ⟨p, c⟩ := by
  induction out with
  | nil => simpa [upsert_file] using hg
  | cons ex rest ih =>
    by_cases he : ex.path = p
    · rw [show upsert_file (ex :: rest) p c = ⟨p, c⟩ :: rest by simp [upsert_file, he]] at hg
      rcases List.mem_cons.mp hg with rfl | h
      · exact Or.inr rfl
      · exact Or.inl (List.mem_cons_of_mem _ h)
    · rw [show upsert_file (ex :: rest) p c = ex :: upsert_file rest p c by
        simp [upsert_file, he]] at hg
      rcases List.mem_cons.mp hg with rfl | h
      · exact Or.inl (List.mem_cons_self _ _)
      · rcases ih h with h' | h'
        · exact Or.inl (List.mem_cons_of_mem _ h')
        · exact Or.inr h'

/-- Upserting preserves uniqueness of stored paths. -/
theorem upsert_nodup (out : List GenFile) (p c : String)
    (hnd : (out.map (·.path)).Nodup) :
    ((upsert_file out p c).map (·.path)).Nodup := by
  induction out with
  | nil => simp [upsert_file]
  | cons ex rest ih =>
    rw [List.map_cons, List.nodup_cons] at hnd
    by_cases he : ex.path = p
    · rw [show upsert_file (ex :: rest) p c = ⟨p, c⟩ :: rest by simp [upsert_file, he]]
      rw [List.map_cons, List.nodup_cons]
      exact ⟨he ▸ hnd.1, hnd.2⟩
    · rw [show upsert_file (ex :: rest) p c = ex :: upsert_file rest p c by
        simp [upsert_file, he]]
      rw [List.map_cons, List.nodup_cons]
      refine ⟨?_, ih hnd.2⟩
      intro hmem
      rcases List.mem_map.mp hmem with ⟨g, hg, hgp⟩
      rcases mem_upsert rest p c g hg with h' | h'
      · exact hnd.1 (hgp ▸ List.mem_map_of_mem (·.path) h')
      · exact he (by rw [← hgp, h'])

/-- Upserting an absent key appends. -/
theorem upsert_append_of_not_mem (out : List GenFile) (p c : String)
    (h : ¬ ∃ ex ∈ out, ex.path = p) : upsert_file out p c = out ++ [⟨p, c⟩] := by
  induction out with
  | nil => rfl
  | cons ex rest ih =>
    have he : ex.path ≠ p := fun hc => h ⟨ex, List.mem_cons_self _ _, hc⟩
    have hrest : ¬ ∃ g ∈ rest, g.path = p := fun ⟨g, hg, hgp⟩ =>
      h ⟨g, List.mem_cons_of_mem _ hg, hgp⟩
    simp [upsert_file, he, ih hrest]

/-- When every stored path is a `clean_path` fixed point and the key is
present, the dedupe loop's replace scan coincides with the spec upsert. -/
theorem replace_eq_upsert (out : List GenFile) (p c : String)
    (hfix : ∀ ex ∈ out, clean_path ex.path = ex.path)
    (hmem : ∃ ex ∈ out, ex.path = p) :
    replace_in_sanitized out p c = upsert_file out p c := by
  induction out with
  | nil => exact absurd hmem (by simp)
  | cons ex rest ih =>
    have hex := hfix ex (List.mem_cons_self _ _)
    by_cases he : ex.path = p
    · have hcp : clean_path p = p := he ▸ hex
      simp [replace_in_sanitized, upsert_file, he, hcp]
    · have hcl : clean_path ex.path ≠ p := by rw [hex]; exact he
      have hrest : ∃ g ∈ rest, g.path = p := by
        rcases hmem with ⟨g, hg, hgp⟩
        rcases List.mem_cons.mp hg with rfl | hgrest
        · exact absurd hgp he
        · exact ⟨g, hgrest, hgp⟩
      simp [replace_in_sanitized, upsert_file, he, hcl,
        ih (fun g hg => hfix g (List.mem_cons_of_mem _ hg)) hrest]

/-- The paths stored after an upsert are the old paths plus the new key. -/
theorem upsert_paths_mem (out : List GenFile) (p c s : String) :
    s ∈ (upsert_file out p c).map (·.path) ↔ s ∈ out.map (·.path) ∨ s = p := by
  induction out with
  | nil =>
    simp only [upsert_file, List.map_cons, List.map_nil, List.mem_singleton,
      List.not_mem_nil]
    tauto
  | cons ex rest ih =>
    by_cases he : ex.path = p
    · rw [show upsert_file (ex :: rest) p c = ⟨p, c⟩ :: rest by simp [upsert_file, he]]
      simp only [List.map_cons, List.mem_cons, he]
      tauto
    · rw [show upsert_file (ex :: rest) p c = ex :: upsert_file rest p c by
        simp [upsert_file, he]]
      simp only [List.map_cons, List.mem_cons, ih]
      tauto

/-- The sanitize/dedupe loop refines the spec upsert fold, provided every
emitted path's cleaned form is stable under re-cleaning (invariants: stored
paths are fixed points and `seen` is exactly the set of stored paths). -/
theorem sanitize_go_eq_spec :
    ∀ (gen : List GenFile) (seen : List String) (out : List GenFile),
      (∀ f ∈ gen, f.path ≠ "" → clean_path (clean_path f.path) = clean_path f.path) →
      (∀ ex ∈ out, clean_path ex.path = ex.path) →
      (∀ s, s ∈ seen ↔ s ∈ out.map (·.path)) →
      sanitize_dedupe_go seen out gen = dedupe_spec out gen := by
  intro gen
  induction gen with
  | nil => intro seen out _ _ _; rfl
  | cons f rest ih =>
    intro seen out hstable hfix hseen
    have hstable' : ∀ g ∈ rest, g.path ≠ "" →
        clean_path (clean_path g.path) = clean_path g.path :=
      fun g hg => hstable g (List.mem_cons_of_mem _ hg)
    by_cases hemp : f.path = ""
    · rw [show sanitize_dedupe_go seen out (f :: rest) = sanitize_dedupe_go seen out rest by
          simp [sanitize_dedupe_go, hemp],
        show dedupe_spec out (f :: rest) = dedupe_spec out rest by simp [dedupe_spec, hemp]]
      exact ih seen out hstable' hfix hseen
    · have hp : clean_path (clean_path f.path) = clean_path f.path :=
        hstable f (List.mem_cons_self _ _) hemp
      by_cases hin : clean_path f.path ∈ seen
      · have hmem : ∃ ex ∈ out, ex.path = clean_path f.path := by
          rcases List.mem_map.mp ((hseen _).mp hin) with ⟨ex, hex, hexp⟩
          exact ⟨ex, hex, hexp⟩
        rw [show sanitize_dedupe_go seen out (f :: rest) =
            sanitize_dedupe_go seen
              (replace_in_sanitized out (clean_path f.path) f.content) rest by
          simp [sanitize_dedupe_go, hemp, hin]]
        rw [show dedupe_spec out (f :: rest) =
            dedupe_spec (upsert_file out (clean_path f.path) f.content) rest by
          simp [dedupe_spec, hemp]]
        rw [replace_eq_upsert out _ _ hfix hmem]
        refine ih seen _ hstable' ?_ ?_
        · intro ex hex
          rcases mem_upsert out _ _ ex hex with h' | h'
          · exact hfix ex h'
          · rw [h']; exact hp
        · intro s
          rw [upsert_paths_mem, ← hseen s]
          constructor
          · exact Or.inl
          · rintro (h' | rfl)
            · exact h'
            · exact hin
      · have hnot : ¬ ∃ ex ∈ out, ex.path = clean_path f.path := by
          rintro ⟨ex, hex, hexp⟩
          exact hin ((hseen _).mpr (hexp ▸ List.mem_map_of_mem (·.path) hex))
        rw [show sanitize_dedupe_go seen out (f :: rest) =
            sanitize_dedupe_go (seen ++ [clean_path f.path])
              (out ++ [⟨clean_path f.path, f.content⟩]) rest by
          simp [sanitize_dedupe_go, hemp, hin]]
        rw [show dedupe_spec out (f :: rest) =
            dedupe_spec (upsert_file out (clean_path f.path) f.content) rest by
          simp [dedupe_spec, hemp]]
        rw [upsert_append_of_not_mem out _ _ hnot]
        refine ih (seen ++ [clean_path f.path]) _ hstable' ?_ ?_
        · intro ex hex
          rcases List.mem_append.mp hex with h' | h'
          · exact hfix ex h'
          · rw [List.mem_singleton.mp h']
            exact hp
        · intro s
          rw [List.mem_append, List.mem_singleton, hseen s, List.map_append,
            List.mem_append]
          simp

/-- The spec fold keeps stored paths unique. -/
theorem dedupe_spec_nodup :
    ∀ (gen : List GenFile) (out : List GenFile), (out.map (·.path)).Nodup →
      ((dedupe_spec out gen).map (·.path)).Nodup := by
  intro gen
  induction gen with
  | nil => intro out h; exact h
  | cons f rest ih =>
    intro out h
    by_cases hemp : f.path = ""
    · rw [show dedupe_spec out (f :: rest) = dedupe_spec out rest by simp [dedupe_spec, hemp]]
      exact ih out h
    · rw [show dedupe_spec out (f :: rest) =
          dedupe_spec (upsert_file out (clean_path f.path) f.content) rest by
        simp [dedupe_spec, hemp]]
      exact ih _ (upsert_nodup out _ _ h)

/-- The spec fold's filter at any path: the last occurrence's content wins;
paths never emitted keep the initial bindings. -/
theorem dedupe_spec_filter :
    ∀ (gen : List GenFile) (out : List GenFile) (cp : String), (out.map (·.path)).Nodup →
      (dedupe_spec out gen).filter (fun g => g.path = cp) =
        (match (occContents gen cp).getLast? with
          | some c => [⟨cp, c⟩]
          | none => out.filter (fun g => g.path = cp)) := by
  intro gen
  induction gen with
  | nil => intro out cp _; simp [dedupe_spec, occContents]
  | cons f rest ih =>
    intro out cp hnd
    by_cases hemp : f.path = ""
    · rw [show dedupe_spec out (f :: rest) = dedupe_spec out rest by simp [dedupe_spec, hemp],
        show occContents (f :: rest) cp = occContents rest cp by
          simp [occContents, List.filterMap_cons, hemp]]
      exact ih out cp hnd
    · by_cases hcp : clean_path f.path = cp
      · rw [show dedupe_spec out (f :: rest) =
            dedupe_spec (upsert_file out (clean_path f.path) f.content) rest by
          simp [dedupe_spec, hemp]]
        rw [show occContents (f :: rest) cp = f.content :: occContents rest cp by
          simp [occContents, List.filterMap_cons, hemp, hcp]]
        rw [ih _ cp (upsert_nodup out _ _ hnd)]
        cases hocc : occContents rest cp with
        | nil =>
          simp only [List.getLast?_nil, List.getLast?_singleton]
          rw [hcp]
          exact upsert_filter_eq out cp f.content hnd
        | cons c0 cs =>
          rw [List.getLast?_cons_cons]
          cases hgl : (c0 :: cs).getLast? with
          | none => exact absurd hgl (by simp)
          | some c => rfl
      · rw [show dedupe_spec out (f :: rest) =
            dedupe_spec (upsert_file out (clean_path f.path) f.content) rest by
          simp [dedupe_spec, hemp]]
        rw [show occContents (f :: rest) cp = occContents rest cp by
          simp [occContents, List.filterMap_cons, hemp, hcp]]
        rw [ih _ cp (upsert_nodup out _ _ hnd)]
        cases hocc : occContents rest cp with
        | nil =>
          simp only [List.getLast?_nil]
          exact upsert_filter_ne out _ f.content cp (fun h => hcp h.symm)
        | cons c0 cs => rfl

/-- C8 counterexample: two emissions of the path `/` both clean to the empty
string, the replace scan then never matches the stored entry, and the final
set keeps the FIRST occurrence's content even though the last occurrence's
content was `y`. -/
theorem dedupe_keeps_first_on_root_path :
    sanitize_dedupe [⟨"/", "x"⟩, ⟨"/", "y"⟩] = [⟨"", "x"⟩] ∧
    (occContents [⟨"/", "x"⟩, ⟨"/", "y"⟩] "").getLast? = some "y" ∧
    ("x" : String) ≠ "y" := by
  refine ⟨by decide, by decide, by decide⟩

/-- C8 (amended): provided every emitted path's cleaned form is stable under
re-cleaning (true for all paths except degenerate absolute-root forms such as
`/`, whose cleaned form is the empty string), the merged final file set
contains each cleaned path exactly once, with content from the last
occurrence of that path in emission order; for the degenerate paths the
first occurrence's content survives instead. -/
theorem sanitize_dedupe_last_occurrence (gen : List GenFile)
    (hstable : ∀ f ∈ gen, f.path ≠ "" →
      clean_path (clean_path f.path) = clean_path f.path) :
    ((sanitize_dedupe gen).map (·.path)).Nodup ∧
    ∀ cp, (sanitize_dedupe gen).filter (fun g => g.path = cp) =
      (match (occContents gen cp).getLast? with
        | some c => [⟨cp, c⟩]
        | none => []) := by
  have heq : sanitize_dedupe gen = dedupe_spec [] gen :=
    sanitize_go_eq_spec gen [] [] hstable (by simp) (by simp)
  rw [heq]
  refine ⟨dedupe_spec_nodup gen [] (by simp), ?_⟩
  intro cp
  rw [dedupe_spec_filter gen [] cp (by simp)]
  cases (occContents gen cp).getLast? <;> simp

/-- C8 witness: duplicate emissions of (cleanings of) `a` merge to a single
entry holding the later content. -/
theorem sanitize_dedupe_last_occurrence_witness :
    (sanitize_dedupe [⟨"a", "1"⟩, ⟨"./a", "2"⟩, ⟨"b", "3"⟩]).filter
        (fun g => g.path = "a") =
      (match (occContents [⟨"a", "1"⟩, ⟨"./a", "2"⟩, ⟨"b", "3"⟩] "a").getLast? with
        | some c => [⟨"a", c⟩]
        | none => []) :=
  (sanitize_dedupe_last_occurrence [⟨"a", "1"⟩, ⟨"./a", "2"⟩, ⟨"b", "3"⟩]
    (by decide)).2 "a"

/-! ## C9 — history deduplication in the followup gate -/

/-- The head surviving a `dropWhile` fails the predicate. -/
theorem dropWhile_head_false {α : Type} (q : α → Bool) :
    ∀ (l : List α) (c : α) (t : List α), l.dropWhile q = c :: t → q c = false := by
  intro l
  induction l with
  | nil => intro c t h; simp [List.dropWhile] at h
  | cons a l ih =>
    intro c t h
    by_cases ha : q a
    · exact ih c t (by simpa [List.dropWhile, ha] using h)
    · rw [List.dropWhile_cons_of_neg ha] at h
      cases h
      exact Bool.of_not_eq_true ha

/-- `dropWhile` is idempotent. -/
theorem dropWhile_idem {α : Type} (q : α → Bool) (l : List α) :
    (l.dropWhile q).dropWhile q = l.dropWhile q := by
  cases h : l.dropWhile q with
  | nil => rfl
  | cons c t => rw [List.dropWhile_cons_of_neg (by simp [dropWhile_head_false q l c t h])]

/-- Python `strip()` is idempotent. -/
theorem stripWs_idem (l : List Char) : stripWs (stripWs l) = stripWs l := by
  unfold stripWs
  set A := l.dropWhile wsChar with hA
  have h1 : ((A.reverse.dropWhile wsChar).reverse).dropWhile wsChar =
      (A.reverse.dropWhile wsChar).reverse := by
    cases hdr : (A.reverse.dropWhile wsChar).reverse with
    | nil => rfl
    | cons c t =>
      obtain ⟨s, hs⟩ := List.dropWhile_suffix (l := A.reverse) (p := wsChar)
      have hAeq : A = (A.reverse.dropWhile wsChar).reverse ++ s.reverse := by
        have hrev := congrArg List.reverse hs
        rw [List.reverse_append, List.reverse_reverse] at hrev
        exact hrev.symm
      rw [hdr] at hAeq
      have hc : wsChar c = false :=
        dropWhile_head_false wsChar l c (t ++ s.reverse) (by rw [← hA, hAeq]; simp)
      rw [List.dropWhile_cons_of_neg (by simp [hc])]
  rw [h1, List.reverse_reverse, dropWhile_idem]

/-- Stripping before normalizing changes nothing: `_normalize_qtext` of a
stripped string equals `_normalize_qtext` of the original. -/
theorem normalize_qtext_strip (s : String) :
    normalize_qtext ⟨stripWs s.data⟩ = normalize_qtext s := by
  unfold normalize_qtext
  rw [show (⟨stripWs s.data⟩ : String).data = stripWs s.data from rfl, stripWs_idem]

/-- Nothing returned by the gate's dedupe/filter loop normalizes to a member
of the `seen` set. -/
theorem followup_filter_go_not_seen :
    ∀ (cands : List Followup) (seen answerNorms : List String),
      ∀ out ∈ followup_filter_go seen answerNorms cands,
        ∀ s ∈ seen, normalize_qtext out.question ≠ s := by
  intro cands
  induction cands with
  | nil => intro seen answerNorms out hout; simp [followup_filter_go] at hout
  | cons cand rest ih =>
    intro seen answerNorms out hout s hs
    simp only [followup_filter_go] at hout
    by_cases hblank : stripWs cand.question.data = []
    · rw [if_pos hblank] at hout
      exact ih seen answerNorms out hout s hs
    · rw [if_neg hblank] at hout
      by_cases hseen : normalize_qtext cand.question ∈ seen
      · rw [if_pos hseen] at hout
        exact ih seen answerNorms out hout s hs
      · rw [if_neg hseen] at hout
        by_cases hans : answerNorms.any (fun a =>
            a ≠ "" ∧ (hasSub a.data (normalize_qtext cand.question).data ∨
              hasSub (normalize_qtext cand.question).data a.data)) = true
        · rw [if_pos hans] at hout
          exact ih seen answerNorms out hout s hs
        · rw [if_neg hans] at hout
          rcases List.mem_cons.mp hout with rfl | htail
          · intro hcontra
            rw [show (⟨cand.id, ⟨stripWs cand.question.data⟩, cand.urgency⟩ :
                Followup).question = ⟨stripWs cand.question.data⟩ from rfl,
              normalize_qtext_strip] at hcontra
            exact hseen (hcontra ▸ hs)
          · exact ih (seen ++ [normalize_qtext cand.question]) answerNorms out htail s
              (List.mem_append_left _ hs)

/-- C9: any candidate whose whitespace-collapsed, case-folded text equals a
previously asked question (any casing or whitespace variation) is excluded:
no returned followup normalizes to a history entry. -/
theorem followup_gate_excludes_history (candidates : List Followup)
    (prevQuestions prevAnswers : List String) (minUrgency maxQuestions : Nat) :
    ∀ out ∈ generate_followup_questions candidates prevQuestions prevAnswers
        minUrgency maxQuestions,
      ∀ h ∈ prevQuestions, normalize_qtext out.question ≠ normalize_qtext h := by
  intro out hout h hh
  unfold generate_followup_questions at hout
  have hout' := List.mem_of_mem_filter (List.mem_of_mem_take hout)
  exact followup_filter_go_not_seen candidates (prevQuestions.map normalize_qtext) _
    out hout' (normalize_qtext h) (List.mem_map_of_mem normalize_qtext hh)

/-- C9 witness: a non-duplicate candidate is returned and differs (after
normalization) from the history entry. -/
theorem followup_gate_excludes_history_witness :
    normalize_qtext (⟨"q1", "How many locales?", 50⟩ : Followup).question ≠
      normalize_qtext "Which pages do you need?" :=
  followup_gate_excludes_history [⟨"q1", "How many locales?", 50⟩]
    ["Which pages do you need?"] [] 25 5 ⟨"q1", "How many locales?", 50⟩ (by decide)
    "Which pages do you need?" (by simp)

/-! ## C6 — path safety -/

/-- `isPrefixOf` as an append decomposition. -/
theorem isPrefixOf_exists (n : List Char) :
    ∀ h, n.isPrefixOf h = true ↔ ∃ t, h = n ++ t := by
  induction n with
  | nil => intro h; simp [List.isPrefixOf]
  | cons c n ih =>
    intro h
    cases h with
    | nil => simp [List.isPrefixOf]
    | cons d h' =>
      simp only [List.isPrefixOf, Bool.and_eq_true, beq_iff_eq, List.cons_append, ih]
      constructor
      · rintro ⟨rfl, t, rfl⟩
        exact ⟨t, rfl⟩
      · rintro ⟨t, ht⟩
        injection ht with h1 h2
        exact ⟨h1.symm, t, h2⟩

/-- The substring test as an append decomposition. -/
theorem hasSub_exists (needle hay : List Char) :
    hasSub needle hay = true ↔ ∃ u v, hay = u ++ needle ++ v := by
  unfold hasSub
  rw [List.any_eq_true]
  constructor
  · rintro ⟨t, ht, hp⟩
    rcases (isPrefixOf_exists needle t).mp hp with ⟨v, rfl⟩
    rcases (List.mem_tails _ _).mp ht with ⟨u, hu⟩
    exact ⟨u, v, by rw [← hu, List.append_assoc]⟩
  · rintro ⟨u, v, rfl⟩
    refine ⟨needle ++ v, ?_, (isPrefixOf_exists needle _).mpr ⟨v, rfl⟩⟩
    rw [List.mem_tails]
    exact ⟨u, by rw [List.append_assoc]⟩

/-- `splitSlash` always returns at least one group. -/
theorem splitSlash_ne_nil (l : List Char) : splitSlash l ≠ [] := by
  cases l with
  | nil => simp [splitSlash]
  | cons c rest =>
    by_cases hc : c = '/'
    · simp [splitSlash, hc]
    · cases hg : splitSlash rest with
      | nil => simp [splitSlash, hc, hg]
      | cons g gs => simp [splitSlash, hc, hg]

/-- The first `splitSlash` group is a prefix of the list. -/
theorem splitSlash_head_pfx :
    ∀ (l : List Char) (g : List Char) (gs : List (List Char)),
      splitSlash l = g :: gs → ∃ t, l = g ++ t := by
  intro l
  induction l with
  | nil =>
    intro g gs h
    simp only [splitSlash] at h
    injection h with h1 _
    exact ⟨[], by simp [← h1]⟩
  | cons c rest ih =>
    intro g gs h
    by_cases hc : c = '/'
    · simp only [splitSlash, if_pos hc] at h
      injection h with h1 _
      exact ⟨c :: rest, by simp [← h1]⟩
    · cases hg : splitSlash rest with
      | nil => exact absurd hg (splitSlash_ne_nil rest)
      | cons g0 gs0 =>
        simp only [splitSlash, if_neg hc, hg] at h
        injection h with h1 h2
        rcases ih g0 gs0 hg with ⟨t, ht⟩
        exact ⟨t, by rw [← h1, List.cons_append, ← ht]⟩

/-- A `..` group in the tail of `splitSlash` means the list contains `/..`. -/
theorem splitSlash_tail_dotdot :
    ∀ (l : List Char) (g : List Char) (gs : List (List Char)),
      splitSlash l = g :: gs → ['.', '.'] ∈ gs →
      ∃ s t, l = s ++ '/' :: '.' :: '.' :: t := by
  intro l
  induction l with
  | nil =>
    intro g gs h hmem
    simp only [splitSlash] at h
    injection h with _ h2
    rw [← h2] at hmem
    simp at hmem
  | cons c rest ih =>
    intro g gs h hmem
    by_cases hc : c = '/'
    · simp only [splitSlash, if_pos hc] at h
      injection h with _ h2
      rw [← h2] at hmem
      cases hg : splitSlash rest with
      | nil => exact absurd hg (splitSlash_ne_nil rest)
      | cons g0 gs0 =>
        rw [hg] at hmem
        rcases List.mem_cons.mp hmem with rfl | htail
        · rcases splitSlash_head_pfx rest _ _ hg with ⟨t, ht⟩
          exact ⟨[], t, by rw [hc, ht]; rfl⟩
        · rcases ih g0 gs0 hg htail with ⟨s, t, hst⟩
          exact ⟨c :: s, t, by rw [hst]; rfl⟩
    · cases hg : splitSlash rest with
      | nil => exact absurd hg (splitSlash_ne_nil rest)
      | cons g0 gs0 =>
        simp only [splitSlash, if_neg hc, hg] at h
        injection h with _ h2
        rw [← h2] at hmem
        rcases ih g0 gs0 hg hmem with ⟨s, t, hst⟩
        exact ⟨c :: s, t, by rw [hst]; rfl⟩

/-- A `..` group anywhere in `splitSlash` means the list starts with `..` or
contains `/..`. -/
theorem splitSlash_dotdot (l : List Char) (hmem : ['.', '.'] ∈ splitSlash l) :
    (∃ t, l = '.' :: '.' :: t) ∨ ∃ s t, l = s ++ '/' :: '.' :: '.' :: t := by
  cases hg : splitSlash l with
  | nil => exact absurd hg (splitSlash_ne_nil l)
  | cons g0 gs0 =>
    rw [hg] at hmem
    rcases List.mem_cons.mp hmem with rfl | htail
    · rcases splitSlash_head_pfx l _ _ hg with ⟨t, ht⟩
      exact Or.inl ⟨t, ht⟩
    · exact Or.inr (splitSlash_tail_dotdot l g0 gs0 hg htail)

/-- Characters of `splitSlash` groups come from the original list. -/
theorem mem_splitSlash_sub :
    ∀ (l : List Char) (g : List Char), g ∈ splitSlash l → ∀ c ∈ g, c ∈ l := by
  intro l
  induction l with
  | nil =>
    intro g hg c hc
    simp only [splitSlash] at hg
    rw [List.mem_singleton.mp hg] at hc
    simp at hc
  | cons d rest ih =>
    intro g hg c hc
    by_cases hd : d = '/'
    · simp only [splitSlash, if_pos hd] at hg
      rcases List.mem_cons.mp hg with rfl | htail
      · simp at hc
      · exact List.mem_cons_of_mem _ (ih g htail c hc)
    · cases hrest : splitSlash rest with
      | nil => exact absurd hrest (splitSlash_ne_nil rest)
      | cons g0 gs0 =>
        simp only [splitSlash, if_neg hd, hrest] at hg
        rcases List.mem_cons.mp hg with rfl | htail
        · rcases List.mem_cons.mp hc with rfl | hcg0
          · exact List.mem_cons_self _ _
          · exact List.mem_cons_of_mem _
              (ih g0 (hrest ▸ List.mem_cons_self _ _) c hcg0)
        · exact List.mem_cons_of_mem _
            (ih g (hrest ▸ List.mem_cons_of_mem _ htail) c hc)

/-- The component loop only keeps groups of its input. -/
theorem foldl_normpathStep_mem (k : Nat) :
    ∀ (comps acc : List (List Char)) (g : List Char),
      g ∈ comps.foldl (normpathStep k) acc → g ∈ acc ∨ g ∈ comps := by
  intro comps
  induction comps with
  | nil => intro acc g h; exact Or.inl h
  | cons comp rest ih =>
    intro acc g h
    rcases ih (normpathStep k acc comp) g h with h' | h'
    · unfold normpathStep at h'
      split at h'
      · exact Or.inl h'
      · split at h'
        · rcases List.mem_append.mp h' with h'' | h''
          · exact Or.inl h''
          · exact Or.inr (List.mem_singleton.mp h'' ▸ List.mem_cons_self _ _)
        · split at h'
          · exact Or.inl ((List.dropLast_sublist _).subset h')
          · exact Or.inl h'
    · exact Or.inr (List.mem_cons_of_mem _ h')

/-- Membership in an intersperse comes from the separator or a group. -/
theorem mem_intersperse_cases {α : Type} (sep : α) :
    ∀ (L : List α) (x : α), x ∈ L.intersperse sep → x = sep ∨ x ∈ L := by
  intro L
  induction L with
  | nil => intro x h; simp at h
  | cons a L ih =>
    intro x h
    cases L with
    | nil =>
      rw [List.intersperse_single] at h
      exact Or.inr h
    | cons b L' =>
      rw [List.intersperse_cons₂] at h
      rcases List.mem_cons.mp h with rfl | h'
      · exact Or.inr (List.mem_cons_self _ _)
      · rcases List.mem_cons.mp h' with rfl | h''
        · exact Or.inl rfl
        · rcases ih x h'' with h3 | h3
          · exact Or.inl h3
          · exact Or.inr (List.mem_cons_of_mem _ h3)

/-- Characters of `normpathL` output come from the input, `.` or `/`. -/
theorem mem_normpathL (l : List Char) (c : Char) (hc : c ∈ normpathL l) :
    c ∈ l ∨ c = '.' ∨ c = '/' := by
  unfold normpathL at hc
  split at hc
  · right; left; exact List.mem_singleton.mp hc
  · split at hc
    · right; left; exact List.mem_singleton.mp hc
    · unfold normpathCore at hc
      rcases List.mem_append.mp hc with h' | h'
      · right; right; exact List.eq_of_mem_replicate h'
      · unfold List.intercalate at h'
        rcases List.mem_flatten.mp h' with ⟨g, hg, hcg⟩
        rcases mem_intersperse_cases ['/'] _ g hg with rfl | hgmem
        · right; right; exact List.mem_singleton.mp hcg
        · rcases foldl_normpathStep_mem _ _ [] g hgmem with h'' | h''
          · simp at h''
          · exact Or.inl (mem_splitSlash_sub l g h'' c hcg)

/-- Mapping `slashify` over a backslash-free list is the identity. -/
theorem map_slashify_eq_self (l : List Char) (h : '\\' ∉ l) : l.map slashify = l := by
  induction l with
  | nil => rfl
  | cons a t ih =>
    have ha : a ≠ '\\' := fun hc => h (hc ▸ List.mem_cons_self _ _)
    rw [List.map_cons, show slashify a = a by simp [slashify, ha],
      ih (fun hc => h (List.mem_cons_of_mem _ hc))]

/-- Accepted `_safe_normalize` outputs are neither absolute nor contain a
traversal component. -/
theorem safe_normalize_no_traversal (p sp : String) (h : safe_normalize p = some sp) :
    isAbsolutePath sp = false ∧ hasTraversal sp = false := by
  unfold safe_normalize at h
  by_cases h0 : stripWs p.data = []
  · rw [if_pos h0] at h
    exact absurd h (by simp)
  · rw [if_neg h0] at h
    by_cases habs : (p.data.map slashify).take 1 = ['/']
    · rw [if_pos habs] at h
      exact absurd h (by simp)
    · rw [if_neg habs] at h
      by_cases hbig : ['.', '.'].isPrefixOf (normpathL (p.data.map slashify)) ∨
          hasSub ['/', '.', '.'] (normpathL (p.data.map slashify)) ∨
          normpathL (p.data.map slashify) = ['.', '.']
      · rw [if_pos hbig] at h
        exact absurd h (by simp)
      · rw [if_neg hbig] at h
        push_neg at hbig
        have hnosub : hasSub ['/', '.', '.'] (normpathL (p.data.map slashify)) = false :=
          Bool.not_eq_true _ ▸ Bool.of_not_eq_true hbig.2.1
        have hnb : '\\' ∉ normpathL (p.data.map slashify) := by
          intro hmem
          rcases mem_normpathL _ _ hmem with h' | h' | h'
          · rcases List.mem_map.mp h' with ⟨d, _, hd⟩
            by_cases hdb : d = '\\' <;> simp [slashify, hdb] at hd
          · exact absurd h' (by decide)
          · exact absurd h' (by decide)
        have hmapid := map_slashify_eq_self _ hnb
        have hsp : sp.data =
            (normpathL (p.data.map slashify)).dropWhile (fun c => c = '.' ∨ c = '/') := by
          have := congrArg (fun o => Option.map String.data o) h
          simp only [Option.map_some'] at this
          rw [← Option.some.inj this, hmapid]
        constructor
        · unfold isAbsolutePath
          cases hspd : sp.data with
          | nil => simp
          | cons c t =>
            have hc := dropWhile_head_false _ _ c t (hsp.symm.trans hspd)
            have hnc : ¬ (c = '.' ∨ c = '/') := by simpa using hc
            rw [decide_eq_false_iff_not]
            intro hcontra
            rw [show (c :: t).take 1 = [c] from rfl] at hcontra
            injection hcontra with h1 _
            exact hnc (Or.inr h1)
        · unfold hasTraversal
          by_contra hcontra
          rw [Bool.not_eq_false, List.any_eq_true] at hcontra
          rcases hcontra with ⟨g, hg, hgeq⟩
          rw [decide_eq_true_iff] at hgeq
          subst hgeq
          rcases splitSlash_dotdot sp.data hg with ⟨t, ht⟩ | ⟨s, t, hst⟩
          · have hc := dropWhile_head_false (fun c => decide (c = '.' ∨ c = '/'))
              (normpathL (p.data.map slashify)) '.' ('.' :: t)
              (hsp.symm.trans ht)
            simp at hc
          · obtain ⟨u, hu⟩ := List.dropWhile_suffix
              (l := normpathL (p.data.map slashify)) (p := fun c => c = '.' ∨ c = '/')
            rw [← hsp] at hu
            have : hasSub ['/', '.', '.'] (normpathL (p.data.map slashify)) = true := by
              rw [hasSub_exists]
              exact ⟨u ++ s, t, by rw [← hu, hst]; simp⟩
            rw [hnosub] at this
            exact absurd this (by simp)

/-- C6 counterexample: `generate_project`'s sanitize step keeps a traversal
path verbatim in the final file set — the repo's own `_safe_normalize` rejects
it, but the sanitize loop never calls it. -/
theorem sanitize_keeps_traversal_path :
    sanitize_dedupe [⟨"../evil.txt", "x"⟩] = [⟨"../evil.txt", "x"⟩] ∧
    hasTraversal "../evil.txt" = true ∧
    safe_normalize "../evil.txt" = none := by
  refine ⟨by decide, by decide, by decide⟩

/-- C6 (amended): only the overlay endpoint drops unsafe paths: every
candidate file surviving `generate_overlay`'s filter has a non-absolute,
traversal-free path and is not `package.json`, and a file with an unsafe path
is skipped without aborting the others; `generate_project`'s sanitize loop,
by contrast, retains traversal paths (see the counterexample). -/
theorem overlay_paths_safe (filesOut cands : List GenFile)
    (h : overlay_candidate_files filesOut = some cands) :
    (∀ cf ∈ cands, isAbsolutePath cf.path = false ∧ hasTraversal cf.path = false ∧
      basename cf.path ≠ "package.json") ∧
    (∀ (bad : GenFile) (rest : List GenFile), safe_normalize bad.path = none →
      overlay_candidate_files (bad :: rest) = overlay_candidate_files rest) := by
  refine ⟨?_, ?_⟩
  · induction filesOut generalizing cands with
    | nil =>
      intro cf hcf
      simp only [overlay_candidate_files] at h
      rw [← Option.some.inj h] at hcf
      simp at hcf
    | cons it rest ih =>
      intro cf hcf
      cases hsn : safe_normalize it.path with
      | none =>
        simp only [overlay_candidate_files, hsn] at h
        exact ih cands h cf hcf
      | some sp =>
        simp only [overlay_candidate_files, hsn] at h
        by_cases hbin : (⟨lowerL (splitextExt sp).data⟩ : String) ∈ BINARY_EXTS
        · rw [if_pos hbin] at h
          exact absurd h (by simp)
        · rw [if_neg hbin] at h
          by_cases hpkg : basename sp = "package.json"
          · rw [if_pos hpkg] at h
            exact ih cands h cf hcf
          · rw [if_neg hpkg] at h
            rcases Option.map_eq_some'.mp h with ⟨cs, hcs, hcands⟩
            rw [← hcands] at hcf
            rcases List.mem_cons.mp hcf with rfl | htail
            · have hsafe := safe_normalize_no_traversal it.path sp hsn
              exact ⟨hsafe.1, hsafe.2, hpkg⟩
            · exact ih cs hcs cf htail
  · intro bad rest hbad
    simp only [overlay_candidate_files]
    rw [hbad]

/-- C6 witness: a good file passes the overlay filter and its path is safe. -/
theorem overlay_paths_safe_witness :
    isAbsolutePath (⟨"src/ok.ts", "c"⟩ : GenFile).path = false ∧
    hasTraversal (⟨"src/ok.ts", "c"⟩ : GenFile).path = false ∧
    basename (⟨"src/ok.ts", "c"⟩ : GenFile).path ≠ "package.json" :=
  (overlay_paths_safe [⟨"../x", "c"⟩, ⟨"src/ok.ts", "c"⟩] [⟨"src/ok.ts", "c"⟩]
      (by decide)).1 ⟨"src/ok.ts", "c"⟩ (by simp)

/-! ## C1 — resolved-entry multiplicity in `_resolve_with_registry` -/

/-- One network resolution appends at most one entry: exactly one, except for
an unexpected HTTP status, which appends none; appended entries carry the
processed name, and entries with a `candidates` key are the zero-confidence
null-version ones carrying the search result or the empty list. -/
theorem resolveViaNetwork_resolved (reg : String → RegOutcome)
    (search : String → List Candidate) (now : Nat) (st : RegState) (name : String) :
    ∃ es, (resolveViaNetwork reg search now st name).resolved = st.resolved ++ es ∧
      (∀ e ∈ es, e.name = name) ∧
      (es.length = 1 ∨ (es = [] ∧ ∃ code, reg name = .otherStatus code)) ∧
      (∀ e ∈ es, e.candidates.isSome → e.confidence = 0 ∧ e.version = none ∧
        (e.candidates = some (search name) ∨ e.candidates = some [])) := by
  cases hr : reg name with
  | status200 distLatest dataVersion versionsKeys =>
    by_cases htr : truthyS (registryChosenVersion distLatest dataVersion versionsKeys) = true
    · simp only [resolveViaNetwork, hr, if_pos htr]
      refine ⟨_, rfl, ?_, Or.inl rfl, ?_⟩
      · intro e he
        rw [List.mem_singleton.mp he]
        rfl
      · intro e he hsome
        rw [List.mem_singleton.mp he] at hsome
        simp [npmEntry] at hsome
    · simp only [resolveViaNetwork, hr, if_neg htr]
      refine ⟨_, rfl, ?_, Or.inl rfl, ?_⟩
      · intro e he
        rw [List.mem_singleton.mp he]
        rfl
      · intro e he _
        rw [List.mem_singleton.mp he]
        exact ⟨rfl, rfl, Or.inl rfl⟩
  | notFound =>
    cases hs : search name with
    | nil =>
      simp only [resolveViaNetwork, hr, hs]
      refine ⟨_, rfl, ?_, Or.inl rfl, ?_⟩
      · intro e he
        rw [List.mem_singleton.mp he]
        rfl
      · intro e he _
        rw [List.mem_singleton.mp he]
        exact ⟨rfl, rfl, Or.inl rfl⟩
    | cons top restCands =>
      simp only [resolveViaNetwork, hr, hs]
      refine ⟨_, rfl, ?_, Or.inl rfl, ?_⟩
      · intro e he
        rw [List.mem_singleton.mp he]
        rfl
      · intro e he _
        rw [List.mem_singleton.mp he]
        exact ⟨rfl, rfl, Or.inl rfl⟩
  | otherStatus code =>
    simp only [resolveViaNetwork, hr]
    exact ⟨[], by simp, by simp, Or.inr ⟨rfl, code, rfl⟩, by simp⟩
  | exn m =>
    simp only [resolveViaNetwork, hr]
    refine ⟨_, rfl, ?_, Or.inl rfl, ?_⟩
    · intro e he
      rw [List.mem_singleton.mp he]
      rfl
    · intro e he _
      rw [List.mem_singleton.mp he]
      exact ⟨rfl, rfl, Or.inr rfl⟩

/-- One loop iteration appends at most one entry (exactly one except for an
unexpected HTTP status reached through the network), with the same entry
properties; a fresh cache hit always appends exactly one entry. -/
theorem resolveOne_resolved (reg : String → RegOutcome)
    (search : String → List Candidate) (now : Nat) (st : RegState) (name : String) :
    ∃ es, (resolveOne reg search now st name).resolved = st.resolved ++ es ∧
      (∀ e ∈ es, e.name = name) ∧
      (es.length = 1 ∨ (es = [] ∧ ∃ code, reg name = .otherStatus code)) ∧
      (∀ e ∈ es, e.candidates.isSome → e.confidence = 0 ∧ e.version = none ∧
        (e.candidates = some (search name) ∨ e.candidates = some [])) := by
  cases hc : dictLookup st.cache (some name) with
  | some entry =>
    by_cases hf : now - entry.ts < NPM_CACHE_TTL
    · simp only [resolveOne, hc, if_pos hf]
      refine ⟨[cacheHitEntry name entry.ver], rfl, ?_, Or.inl rfl, ?_⟩
      · intro e he
        rw [List.mem_singleton.mp he]
        rfl
      · intro e he hsome
        rw [List.mem_singleton.mp he] at hsome
        simp [cacheHitEntry] at hsome
    · simp only [resolveOne, hc, if_neg hf]
      exact resolveViaNetwork_resolved reg search now st name
  | none =>
    simp only [resolveOne, hc]
    exact resolveViaNetwork_resolved reg search now st name

/-- Iterations for other names do not change the entry count of a name. -/
theorem resolve_fold_count_other (reg : String → RegOutcome)
    (search : String → List Candidate) (now : Nat) :
    ∀ (names : List String) (st : RegState) (name : String), name ∉ names →
      ((names.foldl (resolveOne reg search now) st).resolved.filter
        (fun e => e.name = name)).length =
      (st.resolved.filter (fun e => e.name = name)).length := by
  intro names
  induction names with
  | nil => intro st name _; rfl
  | cons n rest ih =>
    intro st name hnot
    have hne : name ≠ n := fun hc => hnot (hc ▸ List.mem_cons_self _ _)
    have hrest : name ∉ rest := fun hc => hnot (List.mem_cons_of_mem _ hc)
    rcases resolveOne_resolved reg search now st n with ⟨es, hes, hnames, _, _⟩
    rw [List.foldl_cons, ih (resolveOne reg search now st n) name hrest, hes,
      List.filter_append]
    have : es.filter (fun e => e.name = name) = [] := by
      rw [List.filter_eq_nil_iff]
      intro e he
      simp [hnames e he, hne.symm]
    rw [this, List.append_nil]

/-- Entry count after the whole fold: one per processed name, or zero with an
unexpected-status response. -/
theorem resolve_fold_count (reg : String → RegOutcome)
    (search : String → List Candidate) (now : Nat) :
    ∀ (names : List String) (st : RegState), names.Nodup → ∀ name ∈ names,
      (((names.foldl (resolveOne reg search now) st).resolved.filter
          (fun e => e.name = name)).length =
        (st.resolved.filter (fun e => e.name = name)).length + 1) ∨
      ((((names.foldl (resolveOne reg search now) st).resolved.filter
          (fun e => e.name = name)).length =
        (st.resolved.filter (fun e => e.name = name)).length) ∧
        ∃ code, reg name = .otherStatus code) := by
  intro names
  induction names with
  | nil => intro st _ name hname; simp at hname
  | cons n rest ih =>
    intro st hnd name hname
    rw [List.nodup_cons] at hnd
    rcases List.mem_cons.mp hname with rfl | hmem
    · rcases resolveOne_resolved reg search now st name with ⟨es, hes, hnames, hlen, _⟩
      have hcount := resolve_fold_count_other reg search now rest
        (resolveOne reg search now st name) name hnd.1
      rw [List.foldl_cons, hcount, hes, List.filter_append]
      have hfilter : es.filter (fun e => e.name = name) = es := by
        rw [List.filter_eq_self]
        intro e he
        simp [hnames e he]
      rw [hfilter, List.length_append]
      rcases hlen with h1 | ⟨hnil, code, hcode⟩
      · exact Or.inl (by rw [h1])
      · exact Or.inr ⟨by rw [hnil]; rfl, code, hcode⟩
    · have hne : name ≠ n := fun hc => hnd.1 (hc ▸ hmem)
      rcases resolveOne_resolved reg search now st n with ⟨es, hes, hnames, _, _⟩
      have hbase : ((resolveOne reg search now st n).resolved.filter
          (fun e => e.name = name)).length =
          (st.resolved.filter (fun e => e.name = name)).length := by
        rw [hes, List.filter_append]
        have : es.filter (fun e => e.name = name) = [] := by
          rw [List.filter_eq_nil_iff]
          intro e he
          simp [hnames e he, hne.symm]
        rw [this, List.append_nil]
      rw [List.foldl_cons]
      rcases ih (resolveOne reg search now st n) hnd.2 name hmem with h | ⟨h, hc⟩
      · exact Or.inl (by rw [h, hbase])
      · exact Or.inr ⟨by rw [h, hbase], hc⟩

/-- Every entry property is preserved by the fold. -/
theorem resolve_fold_entries (reg : String → RegOutcome)
    (search : String → List Candidate) (now : Nat) :
    ∀ (names : List String) (st : RegState),
      (∀ e ∈ st.resolved, e.candidates.isSome → e.confidence = 0 ∧ e.version = none ∧
        (e.candidates = some (search e.name) ∨ e.candidates = some [])) →
      ∀ e ∈ (names.foldl (resolveOne reg search now) st).resolved,
        e.candidates.isSome → e.confidence = 0 ∧ e.version = none ∧
          (e.candidates = some (search e.name) ∨ e.candidates = some []) := by
  intro names
  induction names with
  | nil => intro st hst; exact hst
  | cons n rest ih =>
    intro st hst
    rw [List.foldl_cons]
    refine ih (resolveOne reg search now st n) ?_
    rcases resolveOne_resolved reg search now st n with ⟨es, hes, hnames, _, hprops⟩
    rw [hes]
    intro e he hsome
    rcases List.mem_append.mp he with h' | h'
    · exact hst e h' hsome
    · have hen : e.name = n := hnames e h'
      have hp := hprops e h' hsome
      refine ⟨hp.1, hp.2.1, ?_⟩
      rw [hen]
      exact hp.2.2

/-- C1 counterexample: when the registry answers with an unexpected status
(e.g. 500), `_resolve_with_registry` appends no resolved entry at all for the
requested name — the name is silently dropped (only a warning is recorded),
so "exactly one entry per requested name" fails. -/
theorem registry_drops_name_on_unexpected_status :
    ((resolve_with_registry ["leftpad"] (fun _ => .otherStatus 500) (fun _ => []) 0
        []).resolved.filter (fun e => e.name = "leftpad")).length = 0 ∧
    (resolve_with_registry ["leftpad"] (fun _ => .otherStatus 500) (fun _ => []) 0
        []).resolved = [] ∧
    (0 : Nat) ≠ 1 := by
  refine ⟨by decide, by decide, by decide⟩

/-- C1 (amended): every requested name yields exactly one resolved entry,
except a name whose registry query returns an HTTP status other than 200/404
without raising, which yields none; and every entry carrying a `candidates`
key has confidence 0 and a null version, with the candidates being the search
result (non-empty whenever the search found candidates) or the empty list in
the exception path. -/
theorem resolve_with_registry_entry_multiplicity (depNames : List String)
    (reg : String → RegOutcome) (search : String → List Candidate) (now : Nat)
    (cache0 : List (Option String × CacheEntry)) (hnd : depNames.Nodup) :
    (∀ name ∈ depNames,
      (((resolve_with_registry depNames reg search now cache0).resolved.filter
          (fun e => e.name = name)).length = 1) ∨
      ((((resolve_with_registry depNames reg search now cache0).resolved.filter
          (fun e => e.name = name)).length = 0) ∧
        ∃ code, reg name = .otherStatus code)) ∧
    (∀ e ∈ (resolve_with_registry depNames reg search now cache0).resolved,
      e.candidates.isSome → e.confidence = 0 ∧ e.version = none ∧
        (e.candidates = some (search e.name) ∨ e.candidates = some [])) := by
  constructor
  · intro name hname
    have := resolve_fold_count reg search now depNames ⟨cache0, [], [], [], false⟩ hnd
      name hname
    simpa [resolve_with_registry] using this
  · exact resolve_fold_entries reg search now depNames ⟨cache0, [], [], [], false⟩
      (by simp)

/-- C1 witness: a 200 response yields exactly one entry for `react`. -/
theorem resolve_with_registry_entry_multiplicity_witness :
    (((resolve_with_registry ["react"] (fun _ => .status200 (some "18.2.0") none [])
        (fun _ => []) 0 []).resolved.filter (fun e => e.name = "react")).length = 1) ∨
    ((((resolve_with_registry ["react"] (fun _ => .status200 (some "18.2.0") none [])
        (fun _ => []) 0 []).resolved.filter (fun e => e.name = "react")).length = 0) ∧
      ∃ code, (fun _ => RegOutcome.status200 (some "18.2.0") none []) "react" =
        RegOutcome.otherStatus code) :=
  (resolve_with_registry_entry_multiplicity ["react"]
      (fun _ => .status200 (some "18.2.0") none []) (fun _ => []) 0 [] (by decide)).1
    "react" (by simp)

end StoryblokAI
